import Mathlib

/-!
Verification of the znc-logviewer module (src/logviewer.py) against its
natural-language specification.  The Python source is shallowly embedded:
pure functions become Lean functions, the regex rule table is embedded as a
small backtracking regex engine over an explicit AST, machine arithmetic is
Nat/Int, and Python floats in pretty_number are modelled as exact rationals.
-/

set_option maxHeartbeats 1000000
set_option maxRecDepth 8192

namespace Logviewer

/-! ### SpanPartitioner: Colorizer.chunkify (src/logviewer.py lines 65-83)

A span is a pair (label, (start, end)) with Int endpoints, because Python's
re module reports unmatched optional capture groups as span (-1, -1).
-/

/-- Insert a value into a strictly sorted (ascending, duplicate-free) list,
keeping it strictly sorted.  Models Python's `sorted(set(...))` construction
of `keyidx`. -/
def insertSorted (n : Nat) : List Nat → List Nat
  | [] => [n]
  | m :: ms =>
    if n < m then n :: m :: ms
    else if n = m then m :: ms
    else m :: insertSorted n ms

/-- The sorted breakpoint list of `chunkify`: `keyidx = sorted(set([0, len] +
all nonnegative span endpoints))`.  Spans with a negative start or end are
skipped (`if start < 0 or end < 0: continue`). -/
def keyIdx (len : Nat) (spans : List (String × Int × Int)) : List Nat :=
  (spans.foldr
    (fun sp acc =>
      if sp.2.1 < 0 ∨ sp.2.2 < 0 then acc else sp.2.1.toNat :: sp.2.2.toNat :: acc)
    [0, len]).foldr insertSorted []

/-- Consecutive pairs of a list: models the loop
`for i in range(len(keyidx) - 1): start, end = keyidx[i], keyidx[i+1]`. -/
def pairsOf : List Nat → List (Nat × Nat)
  | a :: b :: rest => (a, b) :: pairsOf (b :: rest)
  | _ => []

/-- Label set of the chunk `[a, b)`: every input span `(cls, (s, e))` with
`s <= a and b <= e` contributes its label, in input order. -/
def chunkLabels (spans : List (String × Int × Int)) (a b : Nat) : List String :=
  spans.filterMap fun sp =>
    if sp.2.1 ≤ (a : Int) ∧ (b : Int) ≤ sp.2.2 then some sp.1 else none

/-- Python's `line[a:b]` for `0 <= a <= b` (slicing clamps at the end of the
string). -/
def pySlice (line : String) (a b : Nat) : String :=
  ⟨(line.data.drop a).take (b - a)⟩

/-- Colorizer.chunkify: split `line` at every span boundary and label each
piece with the spans that fully contain it. -/
def chunkify (line : String) (spans : List (String × Int × Int)) :
    List (List String × String) :=
  (pairsOf (keyIdx line.data.length spans)).map fun p =>
    (chunkLabels spans p.1 p.2, pySlice line p.1 p.2)

/-! ### PatternClassifier: Colorizer.matchersrc / Colorizer.colorize
(src/logviewer.py lines 10-63)

The pygments-derived rule regexes (compiled with re.X, applied with
`r.match(line)`) are embedded as ASTs for a small backtracking regex engine
with capture groups.  The engine follows Python `re` semantics: leftmost
match anchored at position 0, greedy / lazy repetition with backtracking,
`$` matching at end of input or before a newline (re.M), `.` matching any
character except newline, unmatched groups reported as span (-1, -1), and a
group matched repeatedly reporting its last occurrence.  Character classes
\d and \s use their ASCII meaning.  The fuel argument only bounds star
iterations, each of which must consume at least one character (Python's own
engine refuses empty star iterations), so `length + 1` fuel is exact for
the rule table's star-nesting depth of one. -/

abbrev Caps := List (Int × Int)

inductive RE where
  | eps : RE
  | rchar (p : Char → Bool) : RE
  | cat (a b : RE) : RE
  | alt (a b : RE) : RE
  | starG (r : RE) : RE
  | starL (r : RE) : RE
  | group (n : Nat) (r : RE) : RE
  | nla (r : RE) : RE
  | eol : RE

/-- Record the span of capture group `n` (groups are numbered from 1). -/
def setCap (caps : Caps) (n : Nat) (s e : Nat) : Caps :=
  caps.set (n - 1) ((s : Int), (e : Int))

/-- One level of the backtracking matcher, in continuation-passing style:
structural recursion over the pattern, with star iteration delegated to the
`loop` callback (which re-enters at one less fuel).  `reMAux loop r s pos
caps k` tries to match `r` at offset `pos` of `s` and calls `k` at every
candidate end position, longest-preferred for greedy operators. -/
def reMAux (loop : RE → List Char → Nat → Caps →
      (Nat → Caps → Option (Nat × Caps)) → Option (Nat × Caps)) :
    RE → List Char → Nat → Caps →
      (Nat → Caps → Option (Nat × Caps)) → Option (Nat × Caps)
  | .eps, _, pos, caps, k => k pos caps
  | .rchar p, s, pos, caps, k =>
    match s.get? pos with
    | some c => if p c then k (pos + 1) caps else none
    | none => none
  | .cat a b, s, pos, caps, k =>
    reMAux loop a s pos caps (fun p c => reMAux loop b s p c k)
  | .alt a b, s, pos, caps, k =>
    (reMAux loop a s pos caps k).orElse (fun _ => reMAux loop b s pos caps k)
  | .starG r, s, pos, caps, k =>
    (reMAux loop r s pos caps
      (fun p c => if pos < p then loop (.starG r) s p c k else none)).orElse
      (fun _ => k pos caps)
  | .starL r, s, pos, caps, k =>
    (k pos caps).orElse (fun _ =>
      reMAux loop r s pos caps
        (fun p c => if pos < p then loop (.starL r) s p c k else none))
  | .group n r, s, pos, caps, k =>
    reMAux loop r s pos caps (fun p c => k p (setCap c n pos p))
  | .nla r, s, pos, caps, k =>
    match reMAux loop r s pos caps (fun p c => some (p, c)) with
    | some _ => none
    | none => k pos caps
  | .eol, s, pos, caps, k =>
    if pos = s.length ∨ s.get? pos = some (Char.ofNat 10) then k pos caps
    else none

/-- The backtracking matcher.  Fuel is consumed only when a star iterates,
and every star iteration must consume at least one character (Python's
engine likewise refuses empty star iterations), so `length + 1` fuel is
always enough. -/
def reM : Nat → RE → List Char → Nat → Caps →
    (Nat → Caps → Option (Nat × Caps)) → Option (Nat × Caps)
  | 0, _, _, _, _, _ => none
  | f + 1, re, s, pos, caps, k => reMAux (reM f) re s pos caps k

/-- One entry of the compiled rule table: a pattern and the label list
`[wholeclass, groupclasses, ...]` from `Colorizer.matchersrc`. -/
structure Matcher where
  re : RE
  groups : List (Option String)

/-- `r.match(line)`: run a compiled pattern anchored at position 0, with all
capture groups initialised to the unmatched span (-1, -1). -/
def runMatcher (m : Matcher) (line : String) : Option (Nat × Caps) :=
  reM (line.data.length + 1) m.re line.data 0
    (List.replicate (m.groups.length - 1) (-1, -1)) (fun p c => some (p, c))

/-- `res.span(i)`: group 0 is the whole match (anchored at 0), other groups
read the capture array, defaulting to (-1, -1). -/
def spanOf (endPos : Nat) (caps : Caps) (i : Nat) : Int × Int :=
  if i = 0 then ((0 : Int), (endPos : Int)) else caps.getD (i - 1) (-1, -1)

/-- The list comprehension in colorize:
`[(cls, res.span(i)) for i, cls in enumerate(groups) if cls]`. -/
def toSpans (groups : List (Option String)) (endPos : Nat) (caps : Caps) :
    List (String × Int × Int) :=
  groups.enum.filterMap fun ig => ig.2.map fun cl => (cl, spanOf endPos caps ig.1)

/-- Try one rule: match it against the line and, on success, produce its
labeled spans. -/
def applyM (m : Matcher) (line : String) : Option (List (String × Int × Int)) :=
  (runMatcher m line).map fun rc => toSpans m.groups rc.1 rc.2

/-- The loop of Colorizer.colorize: first matching rule wins, no match at
all yields []. -/
def colorizeGo : List Matcher → String → List (String × Int × Int)
  | [], _ => []
  | m :: ms, line =>
    match applyM m line with
    | some out => out
    | none => colorizeGo ms line

/-! Character classes and the rule regexes of `Colorizer.matchersrc`. -/

def pyDigit (c : Char) : Bool := '0' ≤ c && c ≤ '9'

def pyWs (c : Char) : Bool :=
  c == ' ' || c == Char.ofNat 9 || c == Char.ofNat 10 || c == Char.ofNat 13
    || c == Char.ofNat 11 || c == Char.ofNat 12

def chr (c : Char) : RE := .rchar (· == c)

/-- `.` outside a character class (re.DOTALL is off). -/
def anyCh : RE := .rchar (· != Char.ofNat 10)

/-- Greedy `r?` (preferring to match). -/
def optG (r : RE) : RE := .alt r .eps

/-- Greedy `r+`. -/
def plusG (r : RE) : RE := .cat r (.starG r)

def wsStar : RE := .starG (.rchar pyWs)

def wsPlus : RE := plusG (.rchar pyWs)

/-- Greedy `\d{1,4}`, expanded as `\d(\d(\d(\d)?)?)?`. -/
def dig14 : RE :=
  .cat (.rchar pyDigit)
    (optG (.cat (.rchar pyDigit) (optG (.cat (.rchar pyDigit) (optG (.rchar pyDigit))))))

/-- `\d?\d`. -/
def dig02 : RE := .cat (optG (.rchar pyDigit)) (.rchar pyDigit)

/-- Date part of the timestamp: `(?:\d{1,4} [dash or slash])* (?:\d{1,4}) [T ]`. -/
def dateRE : RE :=
  .cat (.starG (.cat dig14 (.rchar (fun c => c == '-' || c == '/'))))
    (.cat dig14 (.rchar (fun c => c == 'T' || c == ' ')))

/-- Time part of the timestamp: `(?:\d?\d [:.])* (?:\d?\d)`. -/
def timeRE : RE :=
  .cat (.starG (.cat dig02 (.rchar (fun c => c == ':' || c == '.')))) dig02

/-- Body of the optional timestamp group: opening bracket/paren, optional
date, time, closing bracket/paren, trailing whitespace. -/
def tsBody : RE :=
  .cat (optG (.rchar (fun c => c == '[' || c == '(')))
    (.cat (.cat (optG dateRE) timeRE)
      (.cat (optG (.rchar (fun c => c == ']' || c == ')'))) wsPlus))

/-- The reusable `timestamp` fragment: `( ... )?` capturing group 1. -/
def tsRE : RE := optG (.group 1 tsBody)

def star4 : RE := .cat (chr '*') (.cat (chr '*') (.cat (chr '*') (chr '*')))

def dotStar : RE := .starG anyCh

/-- Rule 0, log start/end: `^\*\*\*\*(.*)\*\*\*\*$` labeled
['muted', None]. -/
def mLogRule : Matcher :=
  ⟨.cat star4 (.cat (.group 1 dotStar) (.cat star4 .eol)), [some "muted", none]⟩

/-- Rule 1, the "hack" rule for a line that is only a timestamp plus a
bracketed nickname: `^ts(\s*<([^>]*)>\s*)$`. -/
def mHack : Matcher :=
  ⟨.cat tsRE
      (.cat (.group 2 (.cat wsStar (.cat (chr '<')
        (.cat (.group 3 (.starG (.rchar (· != '>')))) (.cat (chr '>') wsStar)))))
        .eol),
   [none, some "timestamp", some "nickname-bracket", some "nickname"]⟩

/-- Rule 2, normal messages:
`^ts(\s*<(.*?)>\s*)(?:(\S+):(?!//))?.*$`. -/
def mMessage : Matcher :=
  ⟨.cat tsRE
      (.cat (.group 2 (.cat wsStar (.cat (chr '<')
        (.cat (.group 3 (.starL anyCh)) (.cat (chr '>') wsStar)))))
        (.cat (optG (.cat (.group 4 (plusG (.rchar (fun c => !pyWs c))))
            (.cat (chr ':') (.nla (.cat (chr '/') (chr '/'))))))
          (.cat dotStar .eol))),
   [none, some "timestamp", some "nickname-bracket", some "nickname", some "prefix"]⟩

/-- Rule 3, /me messages: `^ts(\s*[*]\s+)(\S+\s+).*$`. -/
def mMe : Matcher :=
  ⟨.cat tsRE
      (.cat (.group 2 (.cat wsStar (.cat (chr '*') wsPlus)))
        (.cat (.group 3 (.cat (plusG (.rchar (fun c => !pyWs c))) wsPlus))
          (.cat dotStar .eol))),
   [none, some "timestamp", some "keyword", some "nickname"]⟩

/-- The join/part marker `\*{3}|<?-[!@=P]?->?`. -/
def symJoin : RE :=
  .alt (.cat (chr '*') (.cat (chr '*') (chr '*')))
    (.cat (optG (chr '<')) (.cat (chr '-')
      (.cat (optG (.rchar (fun c => c == '!' || c == '@' || c == '=' || c == 'P')))
        (.cat (chr '-') (optG (chr '>'))))))

/-- Rule 4, join/part messages: `^ts(\s*(?:\*{3}|<?-[!@=P]?->?)\s*)(.*)$`. -/
def mJoin : Matcher :=
  ⟨.cat tsRE
      (.cat (.group 2 (.cat wsStar (.cat symJoin wsStar)))
        (.cat (.group 3 dotStar) .eol)),
   [none, some "timestamp", some "keyword", some "muted"]⟩

/-- Rule 5, catchall with timestamp: `^ts.*$`. -/
def mCatchAll : Matcher :=
  ⟨.cat tsRE (.cat dotStar .eol), [none, some "timestamp"]⟩

/-- The compiled rule table, in priority order. -/
def matchers : List Matcher := [mLogRule, mHack, mMessage, mMe, mJoin, mCatchAll]

/-- Colorizer.colorize. -/
def colorize (line : String) : List (String × Int × Int) := colorizeGo matchers line

/-! ### ContextualGrep: logviewer.grep (src/logviewer.py lines 214-242)

The user regex is abstracted by two functions: `search` (whether
`regex.search(line)` finds a match) and `spansOf` (the spans of
`regex.finditer(line)`). -/

structure Entry where
  idx : Nat
  text : String
  isMatch : Bool
  spans : List (String × Int × Int)
deriving DecidableEq, Repr

structure GrepState where
  pre : List Entry
  found : List Entry
  eclLeft : Nat
  out : List (List Entry)
deriving DecidableEq, Repr

/-- Python's `l[-n:]`, including the quirk that `l[-0:]` is the whole
list. -/
def pyTail {α : Type} (l : List α) (n : Nat) : List α :=
  if n = 0 then l else l.drop (l.length - n)

/-- The guard `if startline and i < startline - 1: continue` (0 is falsy). -/
def skipLine (startline : Option Nat) (i : Nat) : Bool :=
  match startline with
  | none => false
  | some s => s != 0 && decide (i < s - 1)

/-- An unmatched line as stored in `context_pre` and `found`. -/
def plainEntry (i : Nat) (line : String) : Entry := ⟨i, line, false, []⟩

/-- A matched line with its searchword spans:
`[('searchword', m.span(0)) for m in regex.finditer(line)]`. -/
def matchEntry (spansOf : String → List (Int × Int)) (i : Nat)
    (line : String) : Entry :=
  ⟨i, line, true, (spansOf line).map fun sp => ("searchword", sp.1, sp.2)⟩

/-- One iteration of grep's loop over `enumerate(f.readlines())`. -/
def grepStep (context : Nat) (startline : Option Nat) (search : String → Bool)
    (spansOf : String → List (Int × Int)) (st : GrepState) (i : Nat)
    (line : String) : GrepState :=
  let pre := pyTail st.pre context ++ [plainEntry i line]
  if skipLine startline i then { st with pre := pre }
  else if search line then
    let fnd := if st.found.isEmpty then pre.dropLast ++ [matchEntry spansOf i line]
               else st.found ++ [matchEntry spansOf i line]
    { pre := pre, found := fnd, eclLeft := context, out := st.out }
  else
    let fnd := if 0 < st.eclLeft then st.found ++ [plainEntry i line] else st.found
    let ecl := if 0 < st.eclLeft then st.eclLeft - 1 else st.eclLeft
    if ¬ fnd.isEmpty ∧ ecl = 0 then
      { pre := pre, found := [], eclLeft := ecl, out := st.out ++ [fnd] }
    else { pre := pre, found := fnd, eclLeft := ecl, out := st.out }

def grepGo (context : Nat) (startline : Option Nat) (search : String → Bool)
    (spansOf : String → List (Int × Int)) :
    GrepState → Nat → List String → GrepState
  | st, _, [] => st
  | st, i, l :: ls =>
    grepGo context startline search spansOf
      (grepStep context startline search spansOf st i l) (i + 1) ls

/-- logviewer.grep as a pure function: the list of yielded blocks, with the
final non-empty `found` flushed after the loop. -/
def grep (context : Nat) (startline : Option Nat) (search : String → Bool)
    (spansOf : String → List (Int × Int)) (lines : List String) :
    List (List Entry) :=
  let fin := grepGo context startline search spansOf ⟨[], [], 0, []⟩ 0 lines
  fin.out ++ if fin.found.isEmpty then [] else [fin.found]

/-- Entries with consecutive line numbers (each entry one past the
previous). -/
def entriesConsec (l : List Entry) : Prop :=
  List.Chain' (fun x y => y.idx = x.idx + 1) l

/-- A well-formed grep block: at least one matched line, consecutive line
numbers. -/
def blockOK (b : List Entry) : Prop :=
  (∃ e ∈ b, e.isMatch = true) ∧ entriesConsec b

/-- The last entry of `l` (if any) has index `n - 1`. -/
def endsBefore (l : List Entry) (n : Nat) : Prop :=
  ∀ e, l.getLast? = some e → e.idx + 1 = n

/-- Invariant of grep's loop state before processing line `n`. -/
def grepInv (startline : Option Nat) (n : Nat) (st : GrepState) : Prop :=
  entriesConsec st.pre ∧ endsBefore st.pre n
  ∧ (st.found = [] → st.eclLeft = 0)
  ∧ (st.found ≠ [] → skipLine startline n = false ∧ entriesConsec st.found
      ∧ (∃ e ∈ st.found, e.isMatch = true) ∧ endsBefore st.found n)
  ∧ (∀ b ∈ st.out, blockOK b)

/-- The entries `(i, line, False, [])` for a run of unmatched lines starting
at index `n`. -/
def plainEntries : Nat → List String → List Entry
  | _, [] => []
  | n, l :: ls => plainEntry n l :: plainEntries (n + 1) ls

/-! ### pretty_number (src/logviewer.py lines 311-324)

Python's true division makes `n` a float after the first loop iteration.
The float values are modelled as exact fractions (on the inputs appearing
in the claims every intermediate division is exact in binary floating
point, so the exact model agrees with the float computation).  Fractions
are kept unnormalized: numerator and positive denominator. -/

/-- An exact fraction: numerator over a positive denominator. -/
structure PyRat where
  num : Int
  den : Int
deriving DecidableEq, Repr

/-- Embed an integer. -/
def PyRat.ofInt (n : Int) : PyRat := ⟨n, 1⟩

/-- Exact division by a positive integer base. -/
def PyRat.divBy (q : PyRat) (b : Int) : PyRat := ⟨q.num, q.den * b⟩

/-- Comparison `q < r` (valid for positive denominators). -/
def PyRat.blt (q r : PyRat) : Bool := q.num * r.den < r.num * q.den

/-- Python's round() to an integer: round-half-to-even. -/
def pyRound (q : PyRat) : Int :=
  let f := q.num.fdiv q.den
  let r2 := 2 * (q.num - f * q.den)
  if r2 < q.den then f
  else if q.den < r2 then f + 1
  else if f % 2 = 0 then f else f + 1

/-- The loop `for prefix in prefixes: if n < 9999: break; n = n / base`,
returning the prefix in scope after the loop together with the scaled
value. -/
def prettyLoop (base : Int) : List String → PyRat → String × PyRat
  | [], n => ("", n)
  | [p], n => if n.blt (PyRat.ofInt 9999) then (p, n) else (p, n.divBy base)
  | p :: ps, n =>
    if n.blt (PyRat.ofInt 9999) then (p, n)
    else prettyLoop base ps (n.divBy base)

/-- logviewer.pretty_number (the integer argument becomes a float inside
the loop). -/
def pretty_number (n : Int) (unit : String) (log2 : Bool) : String :=
  let base : Int := if log2 then 1024 else 1000
  let pr := prettyLoop base ["", "k", "M", "G", "T", "P", "E", "Z", "Y"]
    (PyRat.ofInt n)
  let s := toString (pyRound pr.2)
  let suffix := pr.1 ++ (if log2 ∧ pr.1 ≠ "" then "i" else "") ++ unit
  if suffix ≠ "" then s ++ " " ++ suffix else s

/-! ### render_loglines chunk bucketing (src/logviewer.py lines 263-286)

Python's randomized built-in string hash is abstracted as a parameter
`pyhash`; `% 10` follows Python semantics (result in [0, 10) even for a
negative hash), which Int.emod shares. -/

/-- The nickname-color step: a chunk labeled `nickname` or `prefix` gets the
synthetic label `nickname-<hash(text.strip()) mod 10>` appended. -/
def recolorChunk (pyhash : String → Int) (c : List String × String) :
    List String × String :=
  if c.1.contains "nickname" || c.1.contains "prefix" then
    (c.1 ++ ["nickname-" ++ toString (pyhash c.2.trim % 10)], c.2)
  else c

/-- Membership test `'nickname-bracket' in cls or 'keyword' in cls or
'nickname' in cls`. -/
def nickCond (cls : List String) : Bool :=
  cls.contains "nickname-bracket" || cls.contains "keyword"
    || cls.contains "nickname"

/-- Membership test `'timestamp' in cls`. -/
def tsCond (cls : List String) : Bool := cls.contains "timestamp"

/-- The bucketing loop of render_loglines, carrying the three buffers and
the one-way `in_other` latch. -/
def bucketGo (pyhash : String → Int) :
    List (List String × String) → List (List String × String) →
    List (List String × String) → List (List String × String) → Bool →
    List (List String × String) × List (List String × String)
      × List (List String × String)
  | [], ts, nick, rest, _ => (ts, nick, rest)
  | ch :: chunks, ts, nick, rest, inOther =>
    let c := recolorChunk pyhash ch
    if inOther then bucketGo pyhash chunks ts nick (rest ++ [c]) true
    else if nickCond c.1 then bucketGo pyhash chunks ts (nick ++ [c]) rest false
    else if tsCond c.1 then bucketGo pyhash chunks (ts ++ [c]) nick rest false
    else bucketGo pyhash chunks ts nick (rest ++ [c]) true

/-- The (timestamp, nickname, rest) partition of a line's chunks. -/
def bucketChunks (pyhash : String → Int)
    (chunks : List (List String × String)) :
    List (List String × String) × List (List String × String)
      × List (List String × String) :=
  bucketGo pyhash chunks [] [] [] false

/-! ### render_search (src/logviewer.py lines 174-212)

Path resolution is abstracted by a boolean outcome, the directory walk by a
list of (relative path, kind, lines) entries, and `re.compile` by an
`Except`: either its error message or the compiled regex, which carries its
search / finditer behavior and whether it matches the empty string
(`regex.match('')`).  The `startfile`/`startline` resume variables of the
source are always None and never alter control flow, so they are omitted. -/

inductive FKind where
  | dir : FKind
  | file : FKind
deriving DecidableEq, Repr

/-- A compiled user regex, abstracted by behavior. -/
structure UserRegex where
  search : String → Bool
  spansOf : String → List (Int × Int)
  matchEmpty : Bool

/-- What render_search leaves behind: the template error field, the emitted
result rows (one per match block), and the handler's return value. -/
structure SearchResult where
  error : Option String
  rows : List (List Entry)
  ok : Bool
deriving DecidableEq, Repr

/-- Consume grep's blocks one at a time: each block adds a row and counts
toward the cap (`results += 1; if results >= 30: return True`).  Returns
the updated count, the rows, and whether the cap fired. -/
def addBlocks : Nat → List (List Entry) → List (List Entry) →
    Nat × List (List Entry) × Bool
  | results, acc, [] => (results, acc, false)
  | results, acc, b :: bs =>
    if 30 ≤ results + 1 then (results + 1, acc ++ [b], true)
    else addBlocks (results + 1) (acc ++ [b]) bs

/-- The walk over the tree: directories are skipped, each file is grepped
and its blocks consumed until the cap fires, after which no further files
are scanned. -/
def searchGo (search : String → Bool) (spansOf : String → List (Int × Int)) :
    Nat → List (List Entry) → List (String × FKind × List String) →
    List (List Entry)
  | _, acc, [] => acc
  | results, acc, (_, k, lines) :: fs =>
    if k = FKind.dir then searchGo search spansOf results acc fs
    else
      if (addBlocks results acc (grep 3 none search spansOf lines)).2.2 then
        (addBlocks results acc (grep 3 none search spansOf lines)).2.1
      else
        searchGo search spansOf
          (addBlocks results acc (grep 3 none search spansOf lines)).1
          (addBlocks results acc (grep 3 none search spansOf lines)).2.1 fs

/-- logviewer.render_search: failed path resolution aborts the request;
a pattern that fails to compile or matches the empty string sets the
template error and completes the request with no rows; otherwise the tree
is searched with a 30-block cap. -/
def render_search (pathOK : Bool) (compiled : Except String UserRegex)
    (files : List (String × FKind × List String)) : SearchResult :=
  if ¬ pathOK then ⟨none, [], false⟩
  else
    match compiled with
    | .error e => ⟨some e, [], true⟩
    | .ok r =>
      if r.matchEmpty then ⟨some "search matches empty string", [], true⟩
      else ⟨none, searchGo r.search r.spansOf 0 [] files, true⟩

/-- A 700-line file whose every seventh line (indices 0, 7, ..., 693)
matches: 100 matching lines whose context windows never overlap
(spacing 7 > 2 * contextSize). -/
def bigLines : List String :=
  (List.replicate 100 ["match", "x", "x", "x", "x", "x", "x"]).flatten

/-! ### PathSandbox: get_safe_path (src/logviewer.py lines 340-360)

The os.path functions are embedded lexically, following posixpath:
normpath resolves '.' and '..' textually and does not resolve symlinks;
join and relpath follow posixpath semantics.  The filesystem is abstracted
by isfile / isdir predicates.  String primitives (prefix test, split on
'/', join with '/') are implemented over the character lists so that they
evaluate by kernel reduction. -/

/-- `s.startswith(t)` as a character-list prefix test. -/
def strStartsWith (s t : String) : Bool := t.data.isPrefixOf s.data

/-- `s.endswith(t)`. -/
def strEndsWith (s t : String) : Bool := t.data.reverse.isPrefixOf s.data.reverse

/-- `s.split('/')` on character lists (keeps empty components, like
Python). -/
def splitSlashChars : List Char → List (List Char)
  | [] => [[]]
  | c :: rest =>
    match splitSlashChars rest, c == '/' with
    | r, true => [] :: r
    | [], false => [[c]]
    | h :: t, false => (c :: h) :: t

/-- `path.split('/')`. -/
def splitSlash (s : String) : List String :=
  (splitSlashChars s.data).map fun cs => ⟨cs⟩

/-- `'/'.join(comps)`. -/
def joinSlash : List String → String
  | [] => ""
  | [x] => x
  | x :: xs => x ++ "/" ++ joinSlash xs

/-- posixpath.join for one right operand. -/
def pJoin (a b : String) : String :=
  if strStartsWith b "/" then b
  else if a = "" ∨ strEndsWith a "/" then a ++ b
  else a ++ "/" ++ b

/-- The component loop of posixpath.normpath, over a reversed stack (the
head is the most recently kept component). -/
def normStack (isAbs : Bool) (comps : List String) : List String :=
  (comps.foldl
    (fun stack comp =>
      if comp = "" ∨ comp = "." then stack
      else if comp ≠ ".."
          ∨ (¬ isAbs ∧ stack = [])
          ∨ stack.headD "" = ".." then
        comp :: stack
      else
        match stack with
        | _ :: rest => rest
        | [] => [])
    []).reverse

/-- posixpath.normpath: purely lexical resolution of '', '.' and '..',
preserving the special double-slash root. -/
def normpath (path : String) : String :=
  if path = "" then "."
  else
    let slashes : Nat :=
      if strStartsWith path "/" then
        if strStartsWith path "//" ∧ ¬ strStartsWith path "///" then 2 else 1
      else 0
    let comps := normStack (slashes ≠ 0) (splitSlash path)
    let res : String := ⟨List.replicate slashes '/'⟩ ++ joinSlash comps
    if res = "" then "." else res

/-- posixpath.abspath with an explicit working directory. -/
def abspath (cwd p : String) : String :=
  normpath (if strStartsWith p "/" then p else pJoin cwd p)

/-- Nonempty path components. -/
def pathComps (p : String) : List String := (splitSlash p).filter (· ≠ "")

/-- Length of the common prefix of two component lists. -/
def commonLen : List String → List String → Nat
  | a :: as, b :: bs => if a = b then 1 + commonLen as bs else 0
  | _, _ => 0

/-- posixpath.relpath. -/
def prelpath (cwd path start : String) : String :=
  let pl := pathComps (abspath cwd path)
  let sl := pathComps (abspath cwd start)
  let i := commonLen sl pl
  let rel := List.replicate (sl.length - i) ".." ++ pl.drop i
  if rel = [] then "." else joinSlash rel

/-- logviewer.relpath: like os.path.relpath but mapping '.' to ''. -/
def relpath (cwd path base : String) : String :=
  let rel := prelpath cwd path base
  if rel = "." then "" else rel

/-- logviewer.get_safe_path: join the requested path onto the log root,
canonicalize, require the root as a string prefix, then check the entry
kind; failures print a 404 page and return None. -/
def get_safe_path (cwd logdir path : String)
    (isfile isdir : String → Bool) (dir : Bool) : Option (String × String) :=
  let base := abspath cwd logdir
  let fullpath := abspath cwd (pJoin base path)
  if strStartsWith fullpath base = false then none
  else if dir = true ∧ isdir fullpath = false then none
  else if dir = false ∧ isfile fullpath = false then none
  else some (fullpath, relpath cwd fullpath base)

end Logviewer

-- ## Theorems

namespace Logviewer

/-! ### Helper lemmas about sorted breakpoint lists -/

theorem chain'_insertSorted (n : Nat) (l : List Nat)
    (h : List.Chain' (· < ·) l) : List.Chain' (· < ·) (insertSorted n l) := by
  induction l with
  | nil => simp [insertSorted]
  | cons m ms ih =>
    rw [List.chain'_cons'] at h
    by_cases h1 : n < m
    · simp only [insertSorted, if_pos h1]
      rw [List.chain'_cons]
      exact ⟨h1, List.chain'_cons'.mpr h⟩
    · by_cases h2 : n = m
      · simp only [insertSorted, if_neg h1, if_pos h2]
        exact List.chain'_cons'.mpr h
      · have hm : m < n := by omega
        simp only [insertSorted, if_neg h1, if_neg h2]
        rw [List.chain'_cons']
        refine ⟨?_, ih h.2⟩
        intro y hy
        cases ms with
        | nil => simp [insertSorted] at hy; omega
        | cons b bs =>
          by_cases hb1 : n < b
          · simp [insertSorted, hb1] at hy
            omega
          · by_cases hb2 : n = b
            · simp [insertSorted, hb1, hb2] at hy
              have := h.1 b (by simp)
              omega
            · simp [insertSorted, hb1, hb2] at hy
              have := h.1 b (by simp)
              omega

theorem mem_insertSorted (n a : Nat) (l : List Nat) :
    a ∈ insertSorted n l ↔ a = n ∨ a ∈ l := by
  induction l with
  | nil => simp [insertSorted]
  | cons m ms ih =>
    by_cases h1 : n < m
    · have e : insertSorted n (m :: ms) = n :: m :: ms := by
        simp [insertSorted, h1]
      rw [e]
      simp [List.mem_cons]
    · by_cases h2 : n = m
      · subst h2
        have e : insertSorted n (n :: ms) = n :: ms := by
          simp [insertSorted]
        rw [e]
        constructor
        · intro h
          exact Or.inr h
        · intro h
          rcases h with h | h
          · rw [h]; simp
          · exact h
      · have e : insertSorted n (m :: ms) = m :: insertSorted n ms := by
          simp [insertSorted, h1, h2]
        rw [e]
        simp only [List.mem_cons, ih]
        tauto

theorem chain'_foldr_insertSorted (xs : List Nat) :
    List.Chain' (· < ·) (xs.foldr insertSorted []) := by
  induction xs with
  | nil => simp
  | cons x xs ih => exact chain'_insertSorted x _ ih

theorem mem_foldr_insertSorted (a : Nat) (xs : List Nat) :
    a ∈ xs.foldr insertSorted [] ↔ a ∈ xs := by
  induction xs with
  | nil => simp
  | cons x xs ih => simp [mem_insertSorted, ih]

theorem keyIdx_chain (len : Nat) (spans : List (String × Int × Int)) :
    List.Chain' (· < ·) (keyIdx len spans) :=
  chain'_foldr_insertSorted _

theorem zero_mem_keyIdx (len : Nat) (spans : List (String × Int × Int)) :
    0 ∈ keyIdx len spans := by
  rw [keyIdx, mem_foldr_insertSorted]
  induction spans with
  | nil => simp
  | cons sp sps ih =>
    by_cases h : sp.2.1 < 0 ∨ sp.2.2 < 0 <;> simp [h, ih]

theorem len_mem_keyIdx (len : Nat) (spans : List (String × Int × Int)) :
    len ∈ keyIdx len spans := by
  rw [keyIdx, mem_foldr_insertSorted]
  induction spans with
  | nil => simp
  | cons sp sps ih =>
    by_cases h : sp.2.1 < 0 ∨ sp.2.2 < 0 <;> simp [h, ih]

theorem head_le_of_chain' : ∀ (l : List Nat) (a : Nat),
    List.Chain' (· < ·) (a :: l) → ∀ x ∈ a :: l, a ≤ x := by
  intro l
  induction l with
  | nil =>
    intro a _ x hx
    simp at hx
    omega
  | cons b bs ih =>
    intro a h x hx
    rw [List.chain'_cons] at h
    rcases List.mem_cons.mp hx with hx | hx
    · omega
    · have := ih b h.2 x hx
      omega

theorem le_getLast?_of_chain' : ∀ (l : List Nat), List.Chain' (· < ·) l →
    ∀ x ∈ l, ∀ y, l.getLast? = some y → x ≤ y := by
  intro l
  induction l with
  | nil => intro _ x hx; simp at hx
  | cons a t ih =>
    intro h x hx y hy
    cases t with
    | nil =>
      simp at hx hy
      omega
    | cons b bs =>
      rw [List.chain'_cons] at h
      rw [List.getLast?_cons_cons] at hy
      rcases List.mem_cons.mp hx with hx | hx
      · subst hx
        have := ih h.2 b (by simp) y hy
        omega
      · exact ih h.2 x hx y hy

/-- A strictly sorted breakpoint list containing 0 must start with 0. -/
theorem keyIdx_eq_cons (len : Nat) (spans : List (String × Int × Int)) :
    ∃ t, keyIdx len spans = 0 :: t := by
  have h0 := zero_mem_keyIdx len spans
  have hc := keyIdx_chain len spans
  cases hk : keyIdx len spans with
  | nil => rw [hk] at h0; simp at h0
  | cons a t =>
    rw [hk] at h0 hc
    have := head_le_of_chain' t a hc 0 h0
    have ha : a = 0 := by omega
    exact ⟨t, by rw [ha]⟩

/-- First components of consecutive pairs are members of the list. -/
theorem pairsOf_fst_mem : ∀ (l : List Nat) (p : Nat × Nat), p ∈ pairsOf l → p.1 ∈ l := by
  intro l
  match l with
  | [] => intro p hp; simp [pairsOf] at hp
  | [a] => intro p hp; simp [pairsOf] at hp
  | a :: b :: rest =>
    intro p hp
    simp only [pairsOf, List.mem_cons] at hp
    rcases hp with hp | hp
    · rw [hp]; simp
    · have := pairsOf_fst_mem (b :: rest) p hp
      simp only [List.mem_cons] at this ⊢
      tauto

/-- Adjacent chunk bounds share their middle breakpoint. -/
theorem pairsOf_chain' : ∀ (l : List Nat),
    List.Chain' (fun p q : Nat × Nat => p.2 = q.1) (pairsOf l) := by
  intro l
  match l with
  | [] => simp [pairsOf]
  | [a] => simp [pairsOf]
  | a :: b :: rest =>
    have ih := pairsOf_chain' (b :: rest)
    simp only [pairsOf]
    rw [List.chain'_cons']
    refine ⟨?_, ih⟩
    intro q hq
    match rest, hq with
    | [], hq =>
      have hnil : pairsOf [b] = [] := rfl
      rw [hnil] at hq
      simp at hq
    | c :: rs, hq =>
      simp only [pairsOf, List.head?_cons, Option.mem_some_iff] at hq
      rw [← hq]

theorem pairsOf_lt : ∀ (l : List Nat), List.Chain' (· < ·) l →
    ∀ p ∈ pairsOf l, p.1 < p.2 := by
  intro l
  match l with
  | [] => intro _ p hp; simp [pairsOf] at hp
  | [a] => intro _ p hp; simp [pairsOf] at hp
  | a :: b :: rest =>
    intro h p hp
    rw [List.chain'_cons] at h
    simp only [pairsOf, List.mem_cons] at hp
    rcases hp with hp | hp
    · rw [hp]; exact h.1
    · exact pairsOf_lt (b :: rest) h.2 p hp

/-- Existence and uniqueness of the chunk containing an offset `j` lying
between the head and some element of a strictly sorted breakpoint list. -/
theorem pairsOf_cover : ∀ (l : List Nat), List.Chain' (· < ·) l → ∀ (j : Nat),
    (∃ x ∈ l, x ≤ j) → (∃ y ∈ l, j < y) →
    ∃! p : Nat × Nat, p ∈ pairsOf l ∧ p.1 ≤ j ∧ j < p.2 := by
  intro l
  match l with
  | [] => intro _ j hlo _; simp at hlo
  | [a] =>
    intro _ j hlo hhi
    exfalso
    obtain ⟨x, hx, hxj⟩ := hlo
    obtain ⟨y, hy, hjy⟩ := hhi
    simp at hx hy
    omega
  | a :: b :: rest =>
    intro h j hlo hhi
    rw [List.chain'_cons] at h
    by_cases hjb : j < b
    · -- the unique pair is (a, b)
      obtain ⟨x, hx, hxj⟩ := hlo
      have haj : a ≤ j := by
        rcases List.mem_cons.mp hx with hx | hx
        · omega
        · have := head_le_of_chain' rest b h.2 x hx
          omega
      refine ⟨(a, b), ⟨by simp [pairsOf], haj, hjb⟩, ?_⟩
      rintro ⟨c, d⟩ ⟨hmem, hc, hd⟩
      simp only [pairsOf, List.mem_cons] at hmem
      rcases hmem with hm | hm
      · exact hm
      · exfalso
        have hcmem : (c, d).1 ∈ b :: rest := pairsOf_fst_mem (b :: rest) (c, d) hm
        have := head_le_of_chain' rest b h.2 c hcmem
        omega
    · -- recurse into b :: rest
      have hlo' : ∃ x ∈ b :: rest, x ≤ j := ⟨b, by simp, by omega⟩
      have hhi' : ∃ y ∈ b :: rest, j < y := by
        obtain ⟨y, hy, hjy⟩ := hhi
        rcases List.mem_cons.mp hy with hy | hy
        · omega
        · exact ⟨y, hy, hjy⟩
      obtain ⟨p, ⟨hpm, hp1, hp2⟩, hpu⟩ := pairsOf_cover (b :: rest) h.2 j hlo' hhi'
      refine ⟨p, ⟨by simp only [pairsOf, List.mem_cons]; right; exact hpm, hp1, hp2⟩, ?_⟩
      rintro ⟨c, d⟩ ⟨hmem, hc, hd⟩
      simp only [pairsOf, List.mem_cons] at hmem
      rcases hmem with hm | hm
      · exfalso
        rw [Prod.ext_iff] at hm
        obtain ⟨hm1, hm2⟩ := hm
        simp at hm1 hm2
        omega
      · exact hpu (c, d) ⟨hm, hc, hd⟩

theorem pairsOf_concat : ∀ (t : List Nat) (a : Nat) (chars : List Char),
    List.Chain' (· < ·) (a :: t) →
    (pairsOf (a :: t)).foldr
        (fun p acc => ((chars.drop p.1).take (p.2 - p.1)) ++ acc) []
      = (chars.drop a).take ((a :: t).getLastD 0 - a) := by
  intro t
  induction t with
  | nil =>
    intro a chars _
    simp [pairsOf, List.getLastD]
  | cons b t' ih =>
    intro a chars h
    rw [List.chain'_cons] at h
    have hbl : b ≤ (b :: t').getLastD 0 := by
      cases ht : (b :: t').getLast? with
      | none => simp at ht
      | some y =>
        have hy := le_getLast?_of_chain' (b :: t') h.2 b (by simp) y ht
        rw [List.getLastD_eq_getLast?, ht]
        simpa using hy
    have hlast : (a :: b :: t').getLastD 0 = (b :: t').getLastD 0 := by
      simp [List.getLastD]
    simp only [pairsOf, List.foldr_cons]
    rw [ih b chars h.2, hlast]
    have h1 : (b :: t').getLastD 0 - a
        = (b - a) + ((b :: t').getLastD 0 - b) := by omega
    rw [h1, List.take_add]
    congr 1
    rw [List.drop_drop]
    congr 2
    omega

theorem strmk_append (a b : List Char) : (⟨a⟩ : String) ++ ⟨b⟩ = ⟨a ++ b⟩ := rfl

theorem foldr_pySlice (ps : List (Nat × Nat)) (line : String) :
    ps.foldr (fun p acc => pySlice line p.1 p.2 ++ acc) ""
      = ⟨ps.foldr (fun p acc => ((line.data.drop p.1).take (p.2 - p.1)) ++ acc) []⟩ := by
  induction ps with
  | nil => rfl
  | cons p ps ih =>
    rw [List.foldr_cons, ih, pySlice, strmk_append]
    rfl

theorem keyIdx_getLastD_ge (len : Nat) (spans : List (String × Int × Int)) :
    len ≤ (keyIdx len spans).getLastD 0 := by
  obtain ⟨t, ht⟩ := keyIdx_eq_cons len spans
  have hm := len_mem_keyIdx len spans
  have hc := keyIdx_chain len spans
  cases hgl : (keyIdx len spans).getLast? with
  | none => rw [ht] at hgl; simp at hgl
  | some y =>
    have := le_getLast?_of_chain' _ hc _ hm y hgl
    rw [List.getLastD_eq_getLast?, hgl]
    simpa using this

/-- C1: for every line and every list of labeled spans, the chunk sequence
produced by `chunkify` reconstructs `line` exactly when its texts are
concatenated in order; the chunk bounds are contiguous (each chunk ends where
the next begins), every chunk is nonempty, and every offset `j` of
`[0, line_length)` lies in exactly one chunk (coverage with no gaps and no
overlap). -/
theorem C1_chunkify_partition (line : String) (spans : List (String × Int × Int)) :
    (chunkify line spans).foldr (fun c acc => c.2 ++ acc) "" = line
    ∧ List.Chain' (fun p q : Nat × Nat => p.2 = q.1)
        (pairsOf (keyIdx line.data.length spans))
    ∧ (∀ p ∈ pairsOf (keyIdx line.data.length spans), p.1 < p.2)
    ∧ ∀ j, j < line.data.length →
        ∃! p : Nat × Nat, p ∈ pairsOf (keyIdx line.data.length spans)
          ∧ p.1 ≤ j ∧ j < p.2 := by
  refine ⟨?_, pairsOf_chain' _, pairsOf_lt _ (keyIdx_chain _ _), ?_⟩
  · rw [chunkify, List.foldr_map, foldr_pySlice]
    obtain ⟨t, ht⟩ := keyIdx_eq_cons line.data.length spans
    have hc := keyIdx_chain line.data.length spans
    have hge := keyIdx_getLastD_ge line.data.length spans
    rw [ht] at hc hge ⊢
    rw [pairsOf_concat t 0 line.data hc]
    rw [List.drop_zero, Nat.sub_zero]
    rw [List.take_of_length_le hge]
  · intro j hj
    exact pairsOf_cover _ (keyIdx_chain _ _) j
      ⟨0, zero_mem_keyIdx _ _, Nat.zero_le j⟩
      ⟨line.data.length, len_mem_keyIdx _ _, hj⟩

/-- Witness for C1 at a concrete line and span list (including an offset for
the coverage clause). -/
theorem C1_chunkify_partition_witness :
    (chunkify "ab" [("x", 1, 2)]).foldr (fun c acc => c.2 ++ acc) "" = "ab"
    ∧ ∃! p : Nat × Nat,
        p ∈ pairsOf (keyIdx ("ab".data.length) [("x", 1, 2)]) ∧ p.1 ≤ 0 ∧ 0 < p.2 :=
  ⟨(C1_chunkify_partition "ab" [("x", 1, 2)]).1,
   (C1_chunkify_partition "ab" [("x", 1, 2)]).2.2.2 0 (by decide)⟩

/-! ### Helper lemmas for the regex engine -/

theorem isSome_orElse {α : Type} (x : Option α) (f : Unit → Option α) :
    (x.orElse f).isSome = (x.isSome || (f ()).isSome) := by
  cases x <;> rfl

/-- The greedy `.*` always reaches end of input (or a newline), where its
continuation is assumed to succeed; fuel exceeding the remaining length
suffices because every star iteration consumes a character. -/
theorem reM_dotStar_isSome (s : List Char) (k : Nat → Caps → Option (Nat × Caps))
    (hk : ∀ p caps, p = s.length ∨ s.get? p = some (Char.ofNat 10) →
      (k p caps).isSome) :
    ∀ (f pos : Nat) (caps : Caps), pos ≤ s.length → s.length - pos < f →
      (reM f (.starG anyCh) s pos caps k).isSome := by
  intro f
  induction f with
  | zero =>
    intro pos caps hle hf
    omega
  | succ f' ih =>
    intro pos caps hle hf
    have hunf : reM (f' + 1) (.starG anyCh) s pos caps k
        = (reMAux (reM f') anyCh s pos caps
            (fun p c => if pos < p then reM f' (.starG anyCh) s p c k
                        else none)).orElse
          (fun _ => k pos caps) := rfl
    rw [hunf, isSome_orElse]
    by_cases hstop : pos = s.length ∨ s.get? pos = some (Char.ofNat 10)
    · have := hk pos caps hstop
      simp [this]
    · push_neg at hstop
      obtain ⟨hne, hnn⟩ := hstop
      have hlt : pos < s.length := by omega
      obtain ⟨c, hc, hcne⟩ : ∃ c, s.get? pos = some c ∧ c ≠ Char.ofNat 10 := by
        cases hg : s.get? pos with
        | none =>
          rw [List.get?_eq_none] at hg
          omega
        | some c =>
          refine ⟨c, rfl, ?_⟩
          intro hcc
          rw [hcc] at hg
          exact hnn hg
      have hinner : (reMAux (reM f') anyCh s pos caps
          (fun p c => if pos < p then reM f' (.starG anyCh) s p c k
                      else none)).isSome := by
        rw [anyCh]
        simp only [reMAux, hc]
        have hb : (c != Char.ofNat 10) = true := by
          simp [bne_iff_ne, hcne]
        rw [hb]
        simp only [if_pos (Nat.lt_succ_self pos)]
        exact ih (pos + 1) caps (by omega) (by omega)
      simp [hinner]

/-- The catch-all rule `^ts.*$` matches every line: its timestamp group is
optional and `.*$` accepts any remaining input. -/
theorem runMatcher_mCatchAll_isSome (line : String) :
    (runMatcher mCatchAll line).isSome := by
  have hstep : runMatcher mCatchAll line
      = (reMAux (reM line.data.length) (.group 1 tsBody) line.data 0
            (List.replicate 1 (-1, -1))
            (fun p c => reMAux (reM line.data.length) (.cat dotStar .eol)
              line.data p c (fun p c => some (p, c)))).orElse
          (fun _ => reM (line.data.length + 1) (.starG anyCh) line.data 0
            (List.replicate 1 (-1, -1))
            (fun p c => reMAux (reM line.data.length) .eol line.data p c
              (fun p c => some (p, c)))) := rfl
  rw [hstep, isSome_orElse]
  have hfall : (reM (line.data.length + 1) (.starG anyCh) line.data 0
      (List.replicate 1 (-1, -1))
      (fun p c => reMAux (reM line.data.length) .eol line.data p c
        (fun p c => some (p, c)))).isSome := by
    refine reM_dotStar_isSome line.data _ ?_ (line.data.length + 1) 0 _
      (Nat.zero_le _) (by omega)
    intro p caps hp
    simp only [reMAux, if_pos hp]
    rfl
  rw [Bool.or_eq_true]
  right
  exact hfall

/-- A span list produced from a label row with at least one label is
nonempty (its length is the number of labeled groups). -/
theorem toSpans_enumFrom_ne_nil (e : Nat) (caps : Caps) :
    ∀ (groups : List (Option String)) (n : Nat), groups.any Option.isSome →
    (groups.enumFrom n).filterMap
      (fun ig => ig.2.map fun cl => (cl, spanOf e caps ig.1)) ≠ [] := by
  intro groups
  induction groups with
  | nil =>
    intro n hg
    simp at hg
  | cons g gs ih =>
    intro n hg
    cases g with
    | some cl => simp [List.enumFrom, List.filterMap_cons]
    | none =>
      simp only [List.enumFrom, List.filterMap_cons, Option.map_none]
      refine ih (n + 1) ?_
      simpa using hg

theorem applyM_ne_nil (m : Matcher) (line : String)
    (out : List (String × Int × Int)) (hg : m.groups.any Option.isSome)
    (h : applyM m line = some out) : out ≠ [] := by
  rw [applyM] at h
  cases hr : runMatcher m line with
  | none =>
    rw [hr] at h
    simp at h
  | some rc =>
    rw [hr] at h
    simp only [Option.map_some'] at h
    have hout : toSpans m.groups rc.1 rc.2 = out := Option.some.inj h
    rw [← hout, toSpans, List.enum]
    exact toSpans_enumFrom_ne_nil rc.1 rc.2 m.groups 0 hg

theorem colorizeGo_ne_nil : ∀ (ms : List Matcher) (line : String),
    (∀ m ∈ ms, m.groups.any Option.isSome) →
    (∃ m ∈ ms, (applyM m line).isSome) →
    colorizeGo ms line ≠ [] := by
  intro ms
  induction ms with
  | nil =>
    intro line _ hex
    simp at hex
  | cons m ms ih =>
    intro line hall hex
    cases h : applyM m line with
    | some out =>
      have hne := applyM_ne_nil m line out (hall m (by simp)) h
      simpa [colorizeGo, h] using hne
    | none =>
      simp only [colorizeGo, h]
      refine ih line (fun m' hm' => hall m' (by simp [hm'])) ?_
      rcases hex with ⟨m', hm', hs⟩
      rcases List.mem_cons.mp hm' with rfl | hm'
      · rw [h] at hs
        simp at hs
      · exact ⟨m', hm', hs⟩

theorem colorize_ne_nil (line : String) : colorize line ≠ [] := by
  have hcatch : (applyM mCatchAll line).isSome := by
    rw [applyM, Option.isSome_map']
    exact runMatcher_mCatchAll_isSome line
  refine colorizeGo_ne_nil matchers line (by decide) ?_
  exact ⟨mCatchAll, by simp [matchers], hcatch⟩

/-- The loop of colorize returns the first rule that matches, ignoring all
later rules. -/
theorem colorizeGo_first (line : String) :
    ∀ (ms₁ : List Matcher) (m : Matcher) (ms₂ : List Matcher)
      (out : List (String × Int × Int)),
      (∀ m' ∈ ms₁, applyM m' line = none) → applyM m line = some out →
      colorizeGo (ms₁ ++ m :: ms₂) line = out := by
  intro ms₁
  induction ms₁ with
  | nil =>
    intro m ms₂ out _ hm
    simp [colorizeGo, hm]
  | cons a as ih =>
    intro m ms₂ out hnone hm
    have ha : applyM a line = none := hnone a (by simp)
    simp only [List.cons_append, colorizeGo, ha]
    exact ih m ms₂ out (fun m' hm' => hnone m' (by simp [hm'])) hm

/-- C2: classification is first-match-wins over the fixed rule table: if the
table splits as ms1 ++ m :: ms2 where no rule of ms1 matches and m matches,
colorize returns exactly m's spans.  In particular the line
"[12:00] <bob>" (timestamp plus bracketed nickname and nothing else) is
classified by the degenerate bracket rule mHack even though the general
message rule mMessage also matches it. -/
theorem C2_first_match_wins :
    (∀ (line : String) (ms₁ : List Matcher) (m : Matcher)
        (ms₂ : List Matcher) (out : List (String × Int × Int)),
        matchers = ms₁ ++ m :: ms₂ →
        (∀ m' ∈ ms₁, applyM m' line = none) →
        applyM m line = some out →
        colorize line = out)
    ∧ colorize "[12:00] <bob>"
        = [("timestamp", 0, 8), ("nickname-bracket", 8, 13), ("nickname", 9, 12)]
    ∧ applyM mHack "[12:00] <bob>"
        = some [("timestamp", 0, 8), ("nickname-bracket", 8, 13),
                ("nickname", 9, 12)]
    ∧ (applyM mMessage "[12:00] <bob>").isSome := by
  refine ⟨?_, by decide, by decide, by decide⟩
  intro line ms₁ m ms₂ out hsplit hnone hm
  rw [colorize, hsplit]
  exact colorizeGo_first line ms₁ m ms₂ out hnone hm

/-- Witness for C2: instantiating first-match-wins at the concrete line with
ms1 = [mLogRule] and m = mHack. -/
theorem C2_first_match_wins_witness :
    colorize "[12:00] <bob>"
      = [("timestamp", 0, 8), ("nickname-bracket", 8, 13), ("nickname", 9, 12)] :=
  C2_first_match_wins.1 "[12:00] <bob>" [mLogRule] mHack
    [mMessage, mMe, mJoin, mCatchAll] _ rfl
    (by
      intro m' hm'
      rw [List.mem_singleton] at hm'
      subst hm'
      decide)
    (by decide)

/-- C10: colorize never returns an empty span list (the catch-all rule's
pattern matches every line, its timestamp group being optional); an
unmatched optional group is reported as span (-1, -1); chunkify ignores a
(-1, -1) span entirely (no breakpoints, no labels); and a line with no
recognisable structure renders as a single fully unlabeled chunk. -/
theorem C10_catchall_negative_spans :
    (∀ line : String, (runMatcher mCatchAll line).isSome)
    ∧ (∀ line : String, colorize line ≠ [])
    ∧ (∀ (line : String) (lbl : String) (spans : List (String × Int × Int)),
        chunkify line ((lbl, -1, -1) :: spans) = chunkify line spans)
    ∧ colorize "hello" = [("timestamp", -1, -1)]
    ∧ chunkify "hello" (colorize "hello") = [([], "hello")] := by
  refine ⟨runMatcher_mCatchAll_isSome, colorize_ne_nil, ?_, by decide, by decide⟩
  intro line lbl spans
  have hkey : keyIdx line.data.length ((lbl, -1, -1) :: spans)
      = keyIdx line.data.length spans := by
    simp [keyIdx]
  rw [chunkify, chunkify, hkey]
  refine List.map_congr_left ?_
  intro p hp
  have hlt := pairsOf_lt _ (keyIdx_chain _ _) p hp
  have h2 : 1 ≤ p.2 := by omega
  have h1 : (1 : Int) ≤ (p.2 : Int) := by exact_mod_cast h2
  have hcond : ¬(((-1 : Int) ≤ (p.1 : Int)) ∧ ((p.2 : Int) ≤ (-1 : Int))) := by
    rintro ⟨-, hb⟩
    omega
  rw [chunkLabels, chunkLabels, List.filterMap_cons, if_neg hcond]

/-- Witness for C10 at concrete inputs. -/
theorem C10_catchall_negative_spans_witness :
    colorize "A" ≠ []
    ∧ chunkify "q" [("z", -1, -1)] = chunkify "q" [] :=
  ⟨C10_catchall_negative_spans.2.1 "A",
   C10_catchall_negative_spans.2.2.1 "q" "z" []⟩

/-! ### Grep loop invariants -/

theorem chain'_drop {α : Type} (R : α → α → Prop) :
    ∀ (k : Nat) (l : List α), List.Chain' R l → List.Chain' R (l.drop k) := by
  intro k
  induction k with
  | zero =>
    intro l h
    simpa using h
  | succ k ih =>
    intro l h
    cases l with
    | nil => simp
    | cons a t =>
      rw [List.drop_succ_cons]
      exact ih t h.tail

theorem getLast?_drop {α : Type} (k : Nat) (l : List α) (h : l.drop k ≠ []) :
    (l.drop k).getLast? = l.getLast? := by
  conv_rhs => rw [← List.take_append_drop k l]
  rw [List.getLast?_append_of_ne_nil _ h]

theorem chain'_pyTail {α : Type} (R : α → α → Prop) (l : List α) (n : Nat)
    (h : List.Chain' R l) : List.Chain' R (pyTail l n) := by
  by_cases hn : n = 0
  · simpa [pyTail, hn] using h
  · simpa [pyTail, hn] using chain'_drop R _ l h

theorem getLast?_pyTail {α : Type} (l : List α) (n : Nat)
    (h : pyTail l n ≠ []) : (pyTail l n).getLast? = l.getLast? := by
  by_cases hn : n = 0
  · simp [pyTail, hn]
  · rw [pyTail, if_neg hn] at h ⊢
    exact getLast?_drop _ l h

theorem skipLine_mono (startline : Option Nat) (n : Nat)
    (h : skipLine startline n = false) : skipLine startline (n + 1) = false := by
  cases startline with
  | none => rfl
  | some s =>
    simp [skipLine] at h ⊢
    intro hs
    have := h hs
    omega

theorem grepStep_inv (context : Nat) (startline : Option Nat)
    (search : String → Bool) (spansOf : String → List (Int × Int))
    (st : GrepState) (n : Nat) (line : String)
    (h : grepInv startline n st) :
    grepInv startline (n + 1)
      (grepStep context startline search spansOf st n line) := by
  obtain ⟨hpreC, hpreE, hfe, hfne, hout⟩ := h
  have hpyC : entriesConsec (pyTail st.pre context) :=
    chain'_pyTail _ _ _ hpreC
  have hpyE : endsBefore (pyTail st.pre context) n := by
    intro e he
    have hne : pyTail st.pre context ≠ [] := by
      intro hcon
      rw [hcon] at he
      simp at he
    rw [getLast?_pyTail _ _ hne] at he
    exact hpreE e he
  have happ : ∀ (l : List Entry) (e : Entry), entriesConsec l →
      endsBefore l n → e.idx = n →
      entriesConsec (l ++ [e]) ∧ endsBefore (l ++ [e]) (n + 1) := by
    intro l e hC hE hidx
    constructor
    · rw [entriesConsec, List.chain'_append]
      refine ⟨hC, by simp, ?_⟩
      intro x hx y hy
      simp at hy
      rw [← hy, hidx]
      have := hE x hx
      omega
    · intro e' he'
      rw [List.getLast?_concat] at he'
      have heq : e = e' := by simpa using he'
      rw [← heq, hidx]
  have hpre' := happ (pyTail st.pre context) (plainEntry n line) hpyC hpyE rfl
  simp only [grepStep]
  by_cases hskip : skipLine startline n = true
  · rw [if_pos hskip]
    refine ⟨hpre'.1, hpre'.2, hfe, ?_, hout⟩
    intro hne
    have := (hfne hne).1
    rw [this] at hskip
    cases hskip
  · have hskip' : skipLine startline n = false := by
      cases hsk : skipLine startline n
      · rfl
      · exact absurd hsk hskip
    rw [if_neg hskip]
    by_cases hmatch : search line = true
    · rw [if_pos hmatch]
      by_cases hfound : st.found = []
      · have hseed := happ (pyTail st.pre context)
          (matchEntry spansOf n line) hpyC hpyE rfl
        rw [hfound]
        simp only [List.isEmpty_nil, if_pos rfl, List.dropLast_concat]
        refine ⟨hpre'.1, hpre'.2, by simp, ?_, hout⟩
        intro _
        refine ⟨skipLine_mono _ _ hskip', hseed.1, ?_, hseed.2⟩
        exact ⟨matchEntry spansOf n line, by simp, rfl⟩
      · obtain ⟨hsk0, hfC, hfM, hfE⟩ := hfne hfound
        have happF := happ st.found (matchEntry spansOf n line) hfC hfE rfl
        have hfneE : st.found.isEmpty = false := by
          cases hfi : st.found.isEmpty
          · rfl
          · exact absurd (List.isEmpty_iff.mp hfi) hfound
        rw [hfneE]
        simp only [Bool.false_eq_true, if_neg (by simp : ¬False)]
        refine ⟨hpre'.1, hpre'.2, by simp, ?_, hout⟩
        intro _
        refine ⟨skipLine_mono _ _ hskip', happF.1, ?_, happF.2⟩
        obtain ⟨e, he, hm⟩ := hfM
        exact ⟨e, List.mem_append_left _ he, hm⟩
    · rw [if_neg hmatch]
      by_cases hecl : 0 < st.eclLeft
      · have hfound : st.found ≠ [] := by
          intro hcon
          have := hfe hcon
          omega
        obtain ⟨hsk0, hfC, hfM, hfE⟩ := hfne hfound
        have happF := happ st.found (plainEntry n line) hfC hfE rfl
        have hfM' : ∃ e ∈ st.found ++ [plainEntry n line], e.isMatch = true := by
          obtain ⟨e, he, hm⟩ := hfM
          exact ⟨e, List.mem_append_left _ he, hm⟩
        rw [if_pos hecl, if_pos hecl]
        by_cases hyield : st.eclLeft - 1 = 0
        · rw [if_pos ⟨by simp, hyield⟩]
          refine ⟨hpre'.1, hpre'.2, fun _ => hyield, ?_, ?_⟩
          · intro hcon
            exact absurd rfl hcon
          · intro b hb
            rcases List.mem_append.mp hb with hb | hb
            · exact hout b hb
            · have : b = st.found ++ [plainEntry n line] := by simpa using hb
              rw [this]
              exact ⟨hfM', happF.1⟩
        · rw [if_neg (by
            intro hcon
            exact hyield hcon.2)]
          refine ⟨hpre'.1, hpre'.2, ?_, ?_, hout⟩
          · intro hcon
            simp at hcon
          · intro _
            exact ⟨skipLine_mono _ _ hskip', happF.1, hfM', happF.2⟩
      · rw [if_neg hecl, if_neg hecl]
        by_cases hfound : st.found = []
        · rw [if_neg (by
            intro hcon
            rw [hfound] at hcon
            simp at hcon)]
          refine ⟨hpre'.1, hpre'.2, hfe, ?_, hout⟩
          intro hcon
          exact absurd hfound hcon
        · obtain ⟨hsk0, hfC, hfM, hfE⟩ := hfne hfound
          have hecl0 : st.eclLeft = 0 := by omega
          rw [if_pos ⟨by
              intro hcon
              exact hfound (List.isEmpty_iff.mp (by simpa using hcon)), hecl0⟩]
          refine ⟨hpre'.1, hpre'.2, fun _ => hecl0, ?_, ?_⟩
          · intro hcon
            exact absurd rfl hcon
          · intro b hb
            rcases List.mem_append.mp hb with hb | hb
            · exact hout b hb
            · have : b = st.found := by simpa using hb
              rw [this]
              exact ⟨hfM, hfC⟩

theorem grepGo_inv (context : Nat) (startline : Option Nat)
    (search : String → Bool) (spansOf : String → List (Int × Int)) :
    ∀ (lines : List String) (st : GrepState) (n : Nat),
      grepInv startline n st →
      ∃ n', grepInv startline n'
        (grepGo context startline search spansOf st n lines) := by
  intro lines
  induction lines with
  | nil =>
    intro st n h
    exact ⟨n, h⟩
  | cons l ls ih =>
    intro st n h
    exact ih _ (n + 1) (grepStep_inv context startline search spansOf st n l h)

/-- Every block yielded by grep is well-formed: it contains a matched line
and its line numbers are consecutive. -/
theorem grep_blocks_ok (context : Nat) (startline : Option Nat)
    (search : String → Bool) (spansOf : String → List (Int × Int))
    (lines : List String) :
    ∀ blk ∈ grep context startline search spansOf lines, blockOK blk := by
  intro blk hblk
  have hinit : grepInv startline 0 ⟨[], [], 0, []⟩ := by
    refine ⟨by simp [entriesConsec], ?_, fun _ => rfl, ?_, ?_⟩
    · intro e he
      simp at he
    · intro hcon
      exact absurd rfl hcon
    · intro b hb
      simp at hb
  obtain ⟨n', hinv⟩ := grepGo_inv context startline search spansOf lines
    ⟨[], [], 0, []⟩ 0 hinit
  rw [grep] at hblk
  rcases List.mem_append.mp hblk with h | h
  · exact hinv.2.2.2.2 blk h
  · by_cases hf : (grepGo context startline search spansOf
        ⟨[], [], 0, []⟩ 0 lines).found.isEmpty
    · rw [if_pos hf] at h
      simp at h
    · rw [if_neg hf] at h
      have hblkeq : blk = (grepGo context startline search spansOf
          ⟨[], [], 0, []⟩ 0 lines).found := by simpa using h
      have hne : (grepGo context startline search spansOf
          ⟨[], [], 0, []⟩ 0 lines).found ≠ [] := by
        intro hcon
        rw [hcon] at hf
        simp at hf
      obtain ⟨_, hfC, hfM, _⟩ := hinv.2.2.2.1 hne
      rw [hblkeq]
      exact ⟨hfM, hfC⟩

/-- C9: every block yielded by grep contains at least one line marked as a
match, and the line numbers of its entries are consecutive (each exactly
one more than the previous). -/
theorem C9_grep_block_invariants (context : Nat) (startline : Option Nat)
    (search : String → Bool) (spansOf : String → List (Int × Int))
    (lines : List String) :
    ∀ blk ∈ grep context startline search spansOf lines,
      (∃ e ∈ blk, e.isMatch = true)
      ∧ List.Chain' (fun x y : Entry => y.idx = x.idx + 1) blk := by
  intro blk hblk
  have := grep_blocks_ok context startline search spansOf lines blk hblk
  exact ⟨this.1, this.2⟩

/-- Witness for C9 on a one-line input whose single line matches. -/
theorem C9_grep_block_invariants_witness :
    (∃ e ∈ [Entry.mk 0 "M" true []], e.isMatch = true)
    ∧ List.Chain' (fun x y : Entry => y.idx = x.idx + 1)
        [Entry.mk 0 "M" true []] :=
  C9_grep_block_invariants 3 none (fun l => l == "M") (fun _ => []) ["M"]
    [Entry.mk 0 "M" true []] (by decide)

/-! ### Context merging (ContextualGrep) -/

theorem consec_nodup (l : List Entry)
    (h : List.Chain' (fun x y : Entry => y.idx = x.idx + 1) l) :
    (l.map Entry.idx).Nodup := by
  have hchain : List.Chain' (· < ·) (l.map Entry.idx) := by
    rw [List.chain'_map]
    exact List.Chain'.imp (fun x y hxy => by omega) h
  have hpair : List.Pairwise (· < ·) (l.map Entry.idx) :=
    List.chain'_iff_pairwise.mp hchain
  exact hpair.imp Nat.ne_of_lt

/-- Keeping only the last `n` elements commutes with first trimming to the
last `n`. -/
theorem pyTail_append {α : Type} (l s : List α) (n : Nat) :
    pyTail (pyTail l n ++ s) n = pyTail (l ++ s) n := by
  by_cases hn : n = 0
  · simp [pyTail, hn]
  · simp only [pyTail, if_neg hn]
    rw [List.drop_append_eq_append_drop, List.drop_append_eq_append_drop,
      List.drop_drop]
    congr 1
    · congr 1
      simp only [List.length_append, List.length_drop]
      omega
    · congr 1
      simp only [List.length_append, List.length_drop]
      omega

theorem grepGo_append (context : Nat) (startline : Option Nat)
    (search : String → Bool) (spansOf : String → List (Int × Int)) :
    ∀ (xs ys : List String) (st : GrepState) (n : Nat),
      grepGo context startline search spansOf st n (xs ++ ys)
        = grepGo context startline search spansOf
            (grepGo context startline search spansOf st n xs)
            (n + xs.length) ys := by
  intro xs
  induction xs with
  | nil =>
    intro ys st n
    simp [grepGo]
  | cons x xs ih =>
    intro ys st n
    have h1 : grepGo context startline search spansOf st n ((x :: xs) ++ ys)
        = grepGo context startline search spansOf
            (grepStep context startline search spansOf st n x) (n + 1)
            (xs ++ ys) := rfl
    rw [h1, ih]
    have h2 : (n + 1) + xs.length = n + (x :: xs).length := by
      rw [List.length_cons]
      omega
    rw [h2]
    rfl

/-- Running grep over unmatched lines from an idle state (no open block)
yields nothing and only rotates the context ring. -/
theorem grep_quiet (search : String → Bool)
    (spansOf : String → List (Int × Int)) :
    ∀ (ls : List String), (∀ l ∈ ls, search l = false) →
    ∀ (pre : List Entry) (out : List (List Entry)) (n : Nat),
      ∃ pf, grepGo 3 none search spansOf ⟨pre, [], 0, out⟩ n ls
          = ⟨pf, [], 0, out⟩
        ∧ pyTail pf 3 = pyTail (pre ++ plainEntries n ls) 3 := by
  intro ls
  induction ls with
  | nil =>
    intro _ pre out n
    exact ⟨pre, rfl, by simp [plainEntries]⟩
  | cons l ls ih =>
    intro hq pre out n
    have hl : search l = false := hq l (by simp)
    have hstep : grepStep 3 none search spansOf ⟨pre, [], 0, out⟩ n l
        = ⟨pyTail pre 3 ++ [plainEntry n l], [], 0, out⟩ := by
      simp [grepStep, skipLine, hl]
    obtain ⟨pf, hgo, hpf⟩ := ih (fun l' hl' => hq l' (by simp [hl']))
      (pyTail pre 3 ++ [plainEntry n l]) out (n + 1)
    refine ⟨pf, ?_, ?_⟩
    · rw [grepGo, hstep, hgo]
    · rw [hpf, List.append_assoc, pyTail_append]
      rfl

/-- Running grep over fewer unmatched lines than the remaining trailing
context appends them to the open block without yielding it. -/
theorem grep_decay (search : String → Bool)
    (spansOf : String → List (Int × Int)) :
    ∀ (ls : List String), (∀ l ∈ ls, search l = false) →
    ∀ (fnd : List Entry) (ecl : Nat), fnd ≠ [] → ls.length < ecl →
    ∀ (pre : List Entry) (out : List (List Entry)) (n : Nat),
      ∃ pre', grepGo 3 none search spansOf ⟨pre, fnd, ecl, out⟩ n ls
          = ⟨pre', fnd ++ plainEntries n ls, ecl - ls.length, out⟩ := by
  intro ls
  induction ls with
  | nil =>
    intro _ fnd ecl _ _ pre out n
    exact ⟨pre, by simp [grepGo, plainEntries]⟩
  | cons l ls ih =>
    intro hq fnd ecl hfnd hlen pre out n
    have hl : search l = false := hq l (by simp)
    have hecl : 0 < ecl := by
      simp at hlen
      omega
    have hstep : grepStep 3 none search spansOf ⟨pre, fnd, ecl, out⟩ n l
        = ⟨pyTail pre 3 ++ [plainEntry n l], fnd ++ [plainEntry n l],
            ecl - 1, out⟩ := by
      have hne0 : ¬(ecl - 1 = 0) := by
        simp at hlen
        omega
      simp [grepStep, skipLine, hl, hecl, hne0]
    obtain ⟨pre', hgo⟩ := ih (fun l' hl' => hq l' (by simp [hl']))
      (fnd ++ [plainEntry n l]) (ecl - 1) (by simp) (by simp at hlen; omega)
      (pyTail pre 3 ++ [plainEntry n l]) out (n + 1)
    refine ⟨pre', ?_⟩
    rw [grepGo, hstep, hgo]
    congr 1
    · rw [List.append_assoc]
      rfl
    · simp at hlen ⊢
      omega

theorem isEmpty_append_singleton {α : Type} (l : List α) (e : α) :
    (l ++ [e]).isEmpty = false := by
  cases l <;> rfl

/-- Counterexample to C3 as stated: with contextSize 3, matches at lines 2
and 7 have individual context windows [0,5] and [4,10], which overlap, yet
grep emits two separate blocks, and line 4 appears in both blocks. -/
theorem C3_counterexample :
    (grep 3 none (fun l => l == "M") (fun _ => [])
        ["a", "b", "M", "c", "d", "e", "f", "M", "g", "h", "i", "j"]).length = 2
    ∧ plainEntry 4 "d" ∈ (grep 3 none (fun l => l == "M") (fun _ => [])
        ["a", "b", "M", "c", "d", "e", "f", "M", "g", "h", "i", "j"]).headD []
    ∧ plainEntry 4 "d" ∈ (grep 3 none (fun l => l == "M") (fun _ => [])
        ["a", "b", "M", "c", "d", "e", "f", "M", "g", "h", "i", "j"]).getLastD []
    := by decide

/-- C3 (amended): two matching lines are merged into one block when the
second match arrives while the first match's trailing context is still
being consumed (at most contextSize lines later); with contextSize 3 and
the matches 2 lines apart this yields a single block spanning from 3 lines
before the first match to 3 lines after the second, with no line number
appearing twice. -/
theorem C3_merge_adjacent (a b c : List String) (m1 m2 : String)
    (search : String → Bool) (spansOf : String → List (Int × Int))
    (ha : ∀ l ∈ a, search l = false) (hb : ∀ l ∈ b, search l = false)
    (hc : ∀ l ∈ c, search l = false)
    (hm1 : search m1 = true) (hm2 : search m2 = true)
    (hblen : b.length < 3) (hclen : 3 ≤ c.length) :
    grep 3 none search spansOf (a ++ m1 :: (b ++ m2 :: c))
      = [pyTail (plainEntries 0 a) 3
          ++ matchEntry spansOf a.length m1
            :: (plainEntries (a.length + 1) b
          ++ matchEntry spansOf (a.length + 1 + b.length) m2
            :: (plainEntries (a.length + 1 + b.length + 1) c).take 3)]
    ∧ ((pyTail (plainEntries 0 a) 3
          ++ matchEntry spansOf a.length m1
            :: (plainEntries (a.length + 1) b
          ++ matchEntry spansOf (a.length + 1 + b.length) m2
            :: (plainEntries (a.length + 1 + b.length + 1) c).take 3)).map
        Entry.idx).Nodup := by
  rcases c with - | ⟨x, c2⟩
  · simp at hclen
  rcases c2 with - | ⟨y, c3⟩
  · simp at hclen
  rcases c3 with - | ⟨z, c'⟩
  · simp at hclen
  have hx : search x = false := hc x (by simp)
  have hy : search y = false := hc y (by simp)
  have hz : search z = false := hc z (by simp)
  -- phase A: leading unmatched lines
  obtain ⟨pfA, hgoA, hwinA⟩ := grep_quiet search spansOf a ha [] [] 0
  rw [List.nil_append] at hwinA
  -- the match on m1 opens a block seeded from the context ring
  have hstep1 : grepStep 3 none search spansOf ⟨pfA, [], 0, []⟩ a.length m1
      = ⟨pyTail pfA 3 ++ [plainEntry a.length m1],
          pyTail pfA 3 ++ [matchEntry spansOf a.length m1], 3, []⟩ := by
    simp [grepStep, skipLine, hm1, List.dropLast_concat]
  -- phase b: at most two unmatched lines keep the block open
  obtain ⟨preB, hgoB⟩ := grep_decay search spansOf b hb
    (pyTail pfA 3 ++ [matchEntry spansOf a.length m1]) 3 (by simp) hblen
    (pyTail pfA 3 ++ [plainEntry a.length m1]) [] (a.length + 1)
  -- the match on m2 joins the open block
  have hfndB : ((pyTail pfA 3 ++ [matchEntry spansOf a.length m1])
      ++ plainEntries (a.length + 1) b).isEmpty = false := by
    cases hfi : ((pyTail pfA 3 ++ [matchEntry spansOf a.length m1])
        ++ plainEntries (a.length + 1) b).isEmpty
    · rfl
    · have := List.isEmpty_iff.mp hfi
      simp at this
  have hstep2 : grepStep 3 none search spansOf
      ⟨preB, (pyTail pfA 3 ++ [matchEntry spansOf a.length m1])
        ++ plainEntries (a.length + 1) b, 3 - b.length, []⟩
      (a.length + 1 + b.length) m2
      = ⟨pyTail preB 3 ++ [plainEntry (a.length + 1 + b.length) m2],
          ((pyTail pfA 3 ++ [matchEntry spansOf a.length m1])
            ++ plainEntries (a.length + 1) b)
            ++ [matchEntry spansOf (a.length + 1 + b.length) m2], 3, []⟩ := by
    simp [grepStep, skipLine, hm2, hfndB]
  -- the three trailing context lines close and yield the merged block
  obtain ⟨pfC, hgoC, -⟩ := grep_quiet search spansOf c'
    (fun l hl => hc l (by simp [hl]))
    (pyTail (pyTail (pyTail (pyTail preB 3
        ++ [plainEntry (a.length + 1 + b.length) m2]) 3
        ++ [plainEntry (a.length + 1 + b.length + 1) x]) 3
        ++ [plainEntry (a.length + 1 + b.length + 1 + 1) y]) 3
        ++ [plainEntry (a.length + 1 + b.length + 1 + 1 + 1) z])
    [(((pyTail pfA 3 ++ [matchEntry spansOf a.length m1])
        ++ plainEntries (a.length + 1) b)
        ++ [matchEntry spansOf (a.length + 1 + b.length) m2])
        ++ [plainEntry (a.length + 1 + b.length + 1) x]
        ++ [plainEntry (a.length + 1 + b.length + 1 + 1) y]
        ++ [plainEntry (a.length + 1 + b.length + 1 + 1 + 1) z]]
    (a.length + 1 + b.length + 1 + 1 + 1 + 1)
  have hfin : grepGo 3 none search spansOf ⟨[], [], 0, []⟩ 0
      (a ++ m1 :: (b ++ m2 :: (x :: y :: z :: c')))
      = ⟨pfC, [], 0,
          [(((pyTail pfA 3 ++ [matchEntry spansOf a.length m1])
              ++ plainEntries (a.length + 1) b)
              ++ [matchEntry spansOf (a.length + 1 + b.length) m2])
              ++ [plainEntry (a.length + 1 + b.length + 1) x]
              ++ [plainEntry (a.length + 1 + b.length + 1 + 1) y]
              ++ [plainEntry (a.length + 1 + b.length + 1 + 1 + 1) z]]⟩ := by
    rw [grepGo_append, hgoA, Nat.zero_add]
    have hc1 : grepGo 3 none search spansOf ⟨pfA, [], 0, []⟩ a.length
        (m1 :: (b ++ m2 :: (x :: y :: z :: c')))
        = grepGo 3 none search spansOf
            (grepStep 3 none search spansOf ⟨pfA, [], 0, []⟩ a.length m1)
            (a.length + 1) (b ++ m2 :: (x :: y :: z :: c')) := rfl
    rw [hc1, hstep1, grepGo_append, hgoB]
    have hc2 : grepGo 3 none search spansOf
        ⟨preB, (pyTail pfA 3 ++ [matchEntry spansOf a.length m1])
          ++ plainEntries (a.length + 1) b, 3 - b.length, []⟩
        (a.length + 1 + b.length) (m2 :: (x :: y :: z :: c'))
        = grepGo 3 none search spansOf
            (grepStep 3 none search spansOf
              ⟨preB, (pyTail pfA 3 ++ [matchEntry spansOf a.length m1])
                ++ plainEntries (a.length + 1) b, 3 - b.length, []⟩
              (a.length + 1 + b.length) m2)
            (a.length + 1 + b.length + 1) (x :: y :: z :: c') := rfl
    rw [hc2, hstep2]
    have hsx : grepStep 3 none search spansOf
        ⟨pyTail preB 3 ++ [plainEntry (a.length + 1 + b.length) m2],
          ((pyTail pfA 3 ++ [matchEntry spansOf a.length m1])
            ++ plainEntries (a.length + 1) b)
            ++ [matchEntry spansOf (a.length + 1 + b.length) m2], 3, []⟩
        (a.length + 1 + b.length + 1) x
        = ⟨pyTail (pyTail preB 3 ++ [plainEntry (a.length + 1 + b.length) m2]) 3
              ++ [plainEntry (a.length + 1 + b.length + 1) x],
            (((pyTail pfA 3 ++ [matchEntry spansOf a.length m1])
              ++ plainEntries (a.length + 1) b)
              ++ [matchEntry spansOf (a.length + 1 + b.length) m2])
              ++ [plainEntry (a.length + 1 + b.length + 1) x], 2, []⟩ := by
      simp [grepStep, skipLine, hx]
    have hc3 : grepGo 3 none search spansOf
        ⟨pyTail preB 3 ++ [plainEntry (a.length + 1 + b.length) m2],
          ((pyTail pfA 3 ++ [matchEntry spansOf a.length m1])
            ++ plainEntries (a.length + 1) b)
            ++ [matchEntry spansOf (a.length + 1 + b.length) m2], 3, []⟩
        (a.length + 1 + b.length + 1) (x :: y :: z :: c')
        = grepGo 3 none search spansOf
            (grepStep 3 none search spansOf
              ⟨pyTail preB 3 ++ [plainEntry (a.length + 1 + b.length) m2],
                ((pyTail pfA 3 ++ [matchEntry spansOf a.length m1])
                  ++ plainEntries (a.length + 1) b)
                  ++ [matchEntry spansOf (a.length + 1 + b.length) m2], 3, []⟩
              (a.length + 1 + b.length + 1) x)
            (a.length + 1 + b.length + 1 + 1) (y :: z :: c') := rfl
    rw [hc3, hsx]
    have hsy : grepStep 3 none search spansOf
        ⟨pyTail (pyTail preB 3 ++ [plainEntry (a.length + 1 + b.length) m2]) 3
            ++ [plainEntry (a.length + 1 + b.length + 1) x],
          (((pyTail pfA 3 ++ [matchEntry spansOf a.length m1])
            ++ plainEntries (a.length + 1) b)
            ++ [matchEntry spansOf (a.length + 1 + b.length) m2])
            ++ [plainEntry (a.length + 1 + b.length + 1) x], 2, []⟩
        (a.length + 1 + b.length + 1 + 1) y
        = ⟨pyTail (pyTail (pyTail preB 3
              ++ [plainEntry (a.length + 1 + b.length) m2]) 3
              ++ [plainEntry (a.length + 1 + b.length + 1) x]) 3
              ++ [plainEntry (a.length + 1 + b.length + 1 + 1) y],
            ((((pyTail pfA 3 ++ [matchEntry spansOf a.length m1])
              ++ plainEntries (a.length + 1) b)
              ++ [matchEntry spansOf (a.length + 1 + b.length) m2])
              ++ [plainEntry (a.length + 1 + b.length + 1) x])
              ++ [plainEntry (a.length + 1 + b.length + 1 + 1) y], 1, []⟩ := by
      simp [grepStep, skipLine, hy]
    have hc4 : grepGo 3 none search spansOf
        ⟨pyTail (pyTail preB 3 ++ [plainEntry (a.length + 1 + b.length) m2]) 3
            ++ [plainEntry (a.length + 1 + b.length + 1) x],
          (((pyTail pfA 3 ++ [matchEntry spansOf a.length m1])
            ++ plainEntries (a.length + 1) b)
            ++ [matchEntry spansOf (a.length + 1 + b.length) m2])
            ++ [plainEntry (a.length + 1 + b.length + 1) x], 2, []⟩
        (a.length + 1 + b.length + 1 + 1) (y :: z :: c')
        = grepGo 3 none search spansOf
            (grepStep 3 none search spansOf
              ⟨pyTail (pyTail preB 3
                  ++ [plainEntry (a.length + 1 + b.length) m2]) 3
                  ++ [plainEntry (a.length + 1 + b.length + 1) x],
                (((pyTail pfA 3 ++ [matchEntry spansOf a.length m1])
                  ++ plainEntries (a.length + 1) b)
                  ++ [matchEntry spansOf (a.length + 1 + b.length) m2])
                  ++ [plainEntry (a.length + 1 + b.length + 1) x], 2, []⟩
              (a.length + 1 + b.length + 1 + 1) y)
            (a.length + 1 + b.length + 1 + 1 + 1) (z :: c') := rfl
    rw [hc4, hsy]
    have hsz : grepStep 3 none search spansOf
        ⟨pyTail (pyTail (pyTail preB 3
              ++ [plainEntry (a.length + 1 + b.length) m2]) 3
              ++ [plainEntry (a.length + 1 + b.length + 1) x]) 3
              ++ [plainEntry (a.length + 1 + b.length + 1 + 1) y],
          ((((pyTail pfA 3 ++ [matchEntry spansOf a.length m1])
            ++ plainEntries (a.length + 1) b)
            ++ [matchEntry spansOf (a.length + 1 + b.length) m2])
            ++ [plainEntry (a.length + 1 + b.length + 1) x])
            ++ [plainEntry (a.length + 1 + b.length + 1 + 1) y], 1, []⟩
        (a.length + 1 + b.length + 1 + 1 + 1) z
        = ⟨pyTail (pyTail (pyTail (pyTail preB 3
              ++ [plainEntry (a.length + 1 + b.length) m2]) 3
              ++ [plainEntry (a.length + 1 + b.length + 1) x]) 3
              ++ [plainEntry (a.length + 1 + b.length + 1 + 1) y]) 3
              ++ [plainEntry (a.length + 1 + b.length + 1 + 1 + 1) z],
            [], 0,
            [(((pyTail pfA 3 ++ [matchEntry spansOf a.length m1])
                ++ plainEntries (a.length + 1) b)
                ++ [matchEntry spansOf (a.length + 1 + b.length) m2])
                ++ [plainEntry (a.length + 1 + b.length + 1) x]
                ++ [plainEntry (a.length + 1 + b.length + 1 + 1) y]
                ++ [plainEntry (a.length + 1 + b.length + 1 + 1 + 1) z]]⟩ := by
      simp [grepStep, skipLine, hz, isEmpty_append_singleton]
    have hc5 : grepGo 3 none search spansOf
        ⟨pyTail (pyTail (pyTail preB 3
              ++ [plainEntry (a.length + 1 + b.length) m2]) 3
              ++ [plainEntry (a.length + 1 + b.length + 1) x]) 3
              ++ [plainEntry (a.length + 1 + b.length + 1 + 1) y],
          ((((pyTail pfA 3 ++ [matchEntry spansOf a.length m1])
            ++ plainEntries (a.length + 1) b)
            ++ [matchEntry spansOf (a.length + 1 + b.length) m2])
            ++ [plainEntry (a.length + 1 + b.length + 1) x])
            ++ [plainEntry (a.length + 1 + b.length + 1 + 1) y], 1, []⟩
        (a.length + 1 + b.length + 1 + 1 + 1) (z :: c')
        = grepGo 3 none search spansOf
            (grepStep 3 none search spansOf
              ⟨pyTail (pyTail (pyTail preB 3
                    ++ [plainEntry (a.length + 1 + b.length) m2]) 3
                    ++ [plainEntry (a.length + 1 + b.length + 1) x]) 3
                    ++ [plainEntry (a.length + 1 + b.length + 1 + 1) y],
                ((((pyTail pfA 3 ++ [matchEntry spansOf a.length m1])
                  ++ plainEntries (a.length + 1) b)
                  ++ [matchEntry spansOf (a.length + 1 + b.length) m2])
                  ++ [plainEntry (a.length + 1 + b.length + 1) x])
                  ++ [plainEntry (a.length + 1 + b.length + 1 + 1) y], 1, []⟩
              (a.length + 1 + b.length + 1 + 1 + 1) z)
            (a.length + 1 + b.length + 1 + 1 + 1 + 1) c' := rfl
    rw [hc5, hsz, hgoC]
  have heq : grep 3 none search spansOf
      (a ++ m1 :: (b ++ m2 :: (x :: y :: z :: c')))
      = [pyTail (plainEntries 0 a) 3
          ++ matchEntry spansOf a.length m1
            :: (plainEntries (a.length + 1) b
          ++ matchEntry spansOf (a.length + 1 + b.length) m2
            :: (plainEntries (a.length + 1 + b.length + 1)
                  (x :: y :: z :: c')).take 3)] := by
    rw [grep]
    rw [hfin]
    simp only [List.isEmpty_nil, if_pos rfl, List.append_nil]
    rw [hwinA]
    simp [plainEntries, List.append_assoc]
  refine ⟨heq, ?_⟩
  have hok := grep_blocks_ok 3 none search spansOf
    (a ++ m1 :: (b ++ m2 :: (x :: y :: z :: c')))
    (pyTail (plainEntries 0 a) 3
      ++ matchEntry spansOf a.length m1
        :: (plainEntries (a.length + 1) b
      ++ matchEntry spansOf (a.length + 1 + b.length) m2
        :: (plainEntries (a.length + 1 + b.length + 1)
              (x :: y :: z :: c')).take 3))
    (by rw [heq]; simp)
  exact consec_nodup _ hok.2

/-- Witness for C3 (amended) at a concrete input: matches at lines 3 and 5
of a ten-line file merge into one block covering lines 0 through 8. -/
theorem C3_merge_adjacent_witness :
    grep 3 none (fun l => l == "M") (fun _ => [(0, 1)])
        ["p", "q", "r", "M", "u", "M", "v", "w", "s", "t"]
      = [pyTail (plainEntries 0 ["p", "q", "r"]) 3
          ++ matchEntry (fun _ => [(0, 1)]) 3 "M"
            :: (plainEntries 4 ["u"]
          ++ matchEntry (fun _ => [(0, 1)]) 5 "M"
            :: (plainEntries 6 ["v", "w", "s", "t"]).take 3)] :=
  (C3_merge_adjacent ["p", "q", "r"] ["u"] ["v", "w", "s", "t"] "M" "M"
    (fun l => l == "M") (fun _ => [(0, 1)])
    (by decide) (by decide) (by decide) (by decide) (by decide)
    (by decide) (by decide)).1

/-! ### Size formatting and chunk bucketing -/

/-- Counterexample to C7 as stated: `pretty_number(1024*1024, "", True)` is
"1024 ki", not "1 Mi" — 1048576/1024 = 1024 is already below the 9999
threshold, so the loop stops at the 'k' prefix. -/
theorem C7_counterexample :
    pretty_number (1024 * 1024) "" true ≠ "1 Mi"
    ∧ pretty_number (1024 * 1024) "" true = "1024 ki" := by
  constructor
  · decide
  · decide

/-- C7 (amended): the size formatter satisfies
`pretty_number 500 "B" false = "500 B"`,
`pretty_number 10000 "B" false = "10 kB"`, and
`pretty_number (1024*1024) "" true = "1024 ki"`; the prefix advances only
while the value is at least 9999 in the current unit, and the result is
rounded to the nearest integer (ties to even). -/
theorem C7_pretty_number :
    pretty_number 500 "B" false = "500 B"
    ∧ pretty_number 10000 "B" false = "10 kB"
    ∧ pretty_number (1024 * 1024) "" true = "1024 ki" := by
  refine ⟨by decide, by decide, by decide⟩

theorem bucketGo_latched (pyhash : String → Int) :
    ∀ (chunks ts nick rest : List (List String × String)),
      bucketGo pyhash chunks ts nick rest true
        = (ts, nick, rest ++ chunks.map (recolorChunk pyhash)) := by
  intro chunks
  induction chunks with
  | nil =>
    intro ts nick rest
    simp [bucketGo]
  | cons ch chunks ih =>
    intro ts nick rest
    rw [bucketGo]
    simp only [if_pos rfl]
    rw [ih]
    simp [List.append_assoc]

theorem bucketGo_open (pyhash : String → Int) :
    ∀ (chunks ts nick rest : List (List String × String)),
      bucketGo pyhash chunks ts nick rest false
        = (ts ++ ((chunks.map (recolorChunk pyhash)).takeWhile
              (fun c => nickCond c.1 || tsCond c.1)).filter
              (fun c => !nickCond c.1 && tsCond c.1),
           nick ++ ((chunks.map (recolorChunk pyhash)).takeWhile
              (fun c => nickCond c.1 || tsCond c.1)).filter
              (fun c => nickCond c.1),
           rest ++ (chunks.map (recolorChunk pyhash)).dropWhile
              (fun c => nickCond c.1 || tsCond c.1)) := by
  intro chunks
  induction chunks with
  | nil =>
    intro ts nick rest
    simp [bucketGo]
  | cons ch chunks ih =>
    intro ts nick rest
    rw [bucketGo]
    by_cases hn : nickCond (recolorChunk pyhash ch).1 = true
    · rw [if_neg (by simp), if_pos hn, ih]
      simp [hn, List.append_assoc]
    · have hn' : nickCond (recolorChunk pyhash ch).1 = false := by
        cases h : nickCond (recolorChunk pyhash ch).1
        · rfl
        · exact absurd h hn
      by_cases ht : tsCond (recolorChunk pyhash ch).1 = true
      · rw [if_neg (by simp), if_neg (by rw [hn']; simp), if_pos ht, ih]
        simp [hn', ht, List.append_assoc]
      · have ht' : tsCond (recolorChunk pyhash ch).1 = false := by
          cases h : tsCond (recolorChunk pyhash ch).1
          · rfl
          · exact absurd h ht
        rw [if_neg (by simp), if_neg (by rw [hn']; simp),
          if_neg (by rw [ht']; simp), bucketGo_latched]
        simp [hn', ht', List.append_assoc]

/-- C8: the bucketing loop obeys a one-way latch.  Writing cs for the
recolored chunk list, the chunks before the first chunk that is neither a
nickname chunk (label set containing nickname-bracket, keyword or nickname)
nor a timestamp chunk are split between the nickname buffer (nickname
chunks) and the timestamp buffer (remaining chunks containing timestamp,
checked only after the nickname condition); from the first chunk fitting
neither case onward, every chunk goes to the message buffer regardless of
its labels. -/
theorem C8_bucket_latch (pyhash : String → Int)
    (chunks : List (List String × String)) :
    bucketChunks pyhash chunks
      = (((chunks.map (recolorChunk pyhash)).takeWhile
            (fun c => nickCond c.1 || tsCond c.1)).filter
            (fun c => !nickCond c.1 && tsCond c.1),
         ((chunks.map (recolorChunk pyhash)).takeWhile
            (fun c => nickCond c.1 || tsCond c.1)).filter
            (fun c => nickCond c.1),
         (chunks.map (recolorChunk pyhash)).dropWhile
            (fun c => nickCond c.1 || tsCond c.1)) := by
  rw [bucketChunks, bucketGo_open]
  simp

/-! ### The search result cap -/

/-- One seven-line period "match x x x x x x" processed from an idle state
yields exactly one block and returns to an idle state. -/
theorem grep_period (search : String → Bool)
    (spansOf : String → List (Int × Int))
    (hm : search "match" = true) (hx : search "x" = false) :
    ∀ (pre : List Entry) (out : List (List Entry)) (n : Nat),
    ∃ pf b, grepGo 3 none search spansOf ⟨pre, [], 0, out⟩ n
        ["match", "x", "x", "x", "x", "x", "x"]
      = ⟨pf, [], 0, out ++ [b]⟩ := by
  intro pre out n
  have hstep1 : grepStep 3 none search spansOf ⟨pre, [], 0, out⟩ n "match"
      = ⟨pyTail pre 3 ++ [plainEntry n "match"],
          pyTail pre 3 ++ [matchEntry spansOf n "match"], 3, out⟩ := by
    simp [grepStep, skipLine, hm, List.dropLast_concat]
  obtain ⟨preB, hgoB⟩ := grep_decay search spansOf ["x", "x"]
    (by intro l hl; simp at hl; rw [hl]; exact hx)
    (pyTail pre 3 ++ [matchEntry spansOf n "match"]) 3 (by simp) (by simp)
    (pyTail pre 3 ++ [plainEntry n "match"]) out (n + 1)
  have hstep2 : grepStep 3 none search spansOf
      ⟨preB, (pyTail pre 3 ++ [matchEntry spansOf n "match"])
        ++ plainEntries (n + 1) ["x", "x"], 3 - 2, out⟩ (n + 1 + 2) "x"
      = ⟨pyTail preB 3 ++ [plainEntry (n + 1 + 2) "x"], [], 0,
          out ++ [((pyTail pre 3 ++ [matchEntry spansOf n "match"])
            ++ plainEntries (n + 1) ["x", "x"]) ++ [plainEntry (n + 1 + 2) "x"]]⟩ := by
    simp [grepStep, skipLine, hx, isEmpty_append_singleton]
  obtain ⟨pf, hgoC, -⟩ := grep_quiet search spansOf ["x", "x", "x"]
    (by intro l hl; simp at hl; rw [hl]; exact hx)
    (pyTail preB 3 ++ [plainEntry (n + 1 + 2) "x"])
    (out ++ [((pyTail pre 3 ++ [matchEntry spansOf n "match"])
      ++ plainEntries (n + 1) ["x", "x"]) ++ [plainEntry (n + 1 + 2) "x"]])
    (n + 1 + 2 + 1)
  refine ⟨pf, ((pyTail pre 3 ++ [matchEntry spansOf n "match"])
    ++ plainEntries (n + 1) ["x", "x"]) ++ [plainEntry (n + 1 + 2) "x"], ?_⟩
  have hc1 : grepGo 3 none search spansOf ⟨pre, [], 0, out⟩ n
      ["match", "x", "x", "x", "x", "x", "x"]
      = grepGo 3 none search spansOf
          (grepStep 3 none search spansOf ⟨pre, [], 0, out⟩ n "match")
          (n + 1) (["x", "x"] ++ "x" :: ["x", "x", "x"]) := rfl
  rw [hc1, hstep1, grepGo_append, hgoB]
  have hc2 : grepGo 3 none search spansOf
      ⟨preB, (pyTail pre 3 ++ [matchEntry spansOf n "match"])
        ++ plainEntries (n + 1) ["x", "x"], 3 - (["x", "x"] : List String).length,
        out⟩ (n + 1 + (["x", "x"] : List String).length) ("x" :: ["x", "x", "x"])
      = grepGo 3 none search spansOf
          (grepStep 3 none search spansOf
            ⟨preB, (pyTail pre 3 ++ [matchEntry spansOf n "match"])
              ++ plainEntries (n + 1) ["x", "x"], 3 - 2, out⟩
            (n + 1 + 2) "x")
          (n + 1 + 2 + 1) ["x", "x", "x"] := rfl
  rw [hc2, hstep2, hgoC]

/-- Grep over `k` disjoint periods yields exactly `k` blocks. -/
theorem grep_periods (search : String → Bool)
    (spansOf : String → List (Int × Int))
    (hm : search "match" = true) (hx : search "x" = false) :
    ∀ (k : Nat) (pre : List Entry) (out : List (List Entry)) (n : Nat),
    ∃ pf outF, grepGo 3 none search spansOf ⟨pre, [], 0, out⟩ n
        (List.replicate k ["match", "x", "x", "x", "x", "x", "x"]).flatten
      = ⟨pf, [], 0, outF⟩ ∧ outF.length = out.length + k := by
  intro k
  induction k with
  | zero =>
    intro pre out n
    exact ⟨pre, out, rfl, by simp⟩
  | succ k ih =>
    intro pre out n
    rw [List.replicate_succ, List.flatten_cons, grepGo_append]
    obtain ⟨pf1, b, hb⟩ := grep_period search spansOf hm hx pre out n
    rw [hb]
    obtain ⟨pf, outF, hgo, hlen⟩ := ih pf1 (out ++ [b])
      (n + (["match", "x", "x", "x", "x", "x", "x"] : List String).length)
    refine ⟨pf, outF, hgo, ?_⟩
    rw [hlen]
    simp
    omega

/-- The 700-line input file produces exactly 100 blocks. -/
theorem grep_bigLines_length :
    (grep 3 none (fun l => l == "match") (fun _ => []) bigLines).length = 100 := by
  obtain ⟨pf, outF, hgo, hlen⟩ := grep_periods (fun l => l == "match")
    (fun _ => []) rfl rfl 100 [] [] 0
  rw [grep, bigLines, hgo]
  simp [hlen]

/-- The cap logic: as soon as at least `30 - results` more blocks are
available, consumption stops with exactly 30 rows emitted. -/
theorem addBlocks_spec :
    ∀ (bs : List (List Entry)) (results : Nat) (acc : List (List Entry)),
      results < 30 → 30 ≤ results + bs.length →
      (addBlocks results acc bs).2.2 = true
      ∧ (addBlocks results acc bs).2.1.length = acc.length + (30 - results) := by
  intro bs
  induction bs with
  | nil =>
    intro results acc h1 h2
    simp at h2
    omega
  | cons b bs ih =>
    intro results acc h1 h2
    by_cases hcap : 30 ≤ results + 1
    · rw [addBlocks, if_pos hcap]
      refine ⟨rfl, ?_⟩
      simp
      omega
    · rw [addBlocks, if_neg hcap]
      obtain ⟨hstop, hlen⟩ := ih (results + 1) (acc ++ [b]) (by omega)
        (by simp at h2 ⊢; omega)
      refine ⟨hstop, ?_⟩
      rw [hlen]
      simp
      omega

/-- C5: on a file producing 100 matching lines with no overlapping context,
render_search emits exactly 30 match blocks; the result is the same
whatever files follow in the walk (the 30th emitted block stops the scan
before any further file is opened). -/
theorem C5_result_cap :
    (grep 3 none (fun l => l == "match") (fun _ => []) bigLines).length = 100
    ∧ (render_search true (.ok ⟨fun l => l == "match", fun _ => [], false⟩)
        [("log", FKind.file, bigLines)]).rows.length = 30
    ∧ ∀ rest, render_search true
        (.ok ⟨fun l => l == "match", fun _ => [], false⟩)
        (("log", FKind.file, bigLines) :: rest)
      = render_search true (.ok ⟨fun l => l == "match", fun _ => [], false⟩)
        [("log", FKind.file, bigLines)] := by
  have hblocks := grep_bigLines_length
  have hspec := addBlocks_spec
    (grep 3 none (fun l => l == "match") (fun _ => []) bigLines) 0 []
    (by omega) (by rw [hblocks]; omega)
  have hsearchGo : ∀ fs, searchGo (fun l => l == "match") (fun _ => []) 0 []
      (("log", FKind.file, bigLines) :: fs)
      = (addBlocks 0 []
          (grep 3 none (fun l => l == "match") (fun _ => []) bigLines)).2.1 := by
    intro fs
    rw [searchGo, if_neg (by simp), if_pos hspec.1]
  have hrender : ∀ fs, render_search true
      (.ok ⟨fun l => l == "match", fun _ => [], false⟩)
      (("log", FKind.file, bigLines) :: fs)
      = ⟨none, (addBlocks 0 []
          (grep 3 none (fun l => l == "match") (fun _ => []) bigLines)).2.1,
          true⟩ := by
    intro fs
    have hr : render_search true
        (.ok ⟨fun l => l == "match", fun _ => [], false⟩)
        (("log", FKind.file, bigLines) :: fs)
        = ⟨none, searchGo (fun l => l == "match") (fun _ => []) 0 []
            (("log", FKind.file, bigLines) :: fs), true⟩ := rfl
    rw [hr, hsearchGo]
  refine ⟨hblocks, ?_, ?_⟩
  · rw [hrender []]
    generalize hX : addBlocks 0 []
      (grep 3 none (fun l => l == "match") (fun _ => []) bigLines) = R
    rw [hX] at hspec
    have hproj : ({ error := none, rows := R.2.1, ok := true }
        : SearchResult).rows = R.2.1 := rfl
    rw [hproj, hspec.2]
    rfl
  · intro rest
    rw [hrender rest, hrender []]

/-- C6: a user pattern that fails to compile, or compiles but matches the
empty string, is rejected before any file is scanned: the failure reason
becomes the user-visible error, no result rows are produced, and the
request still completes successfully. -/
theorem C6_invalid_pattern :
    (∀ (e : String) (files : List (String × FKind × List String)),
        render_search true (.error e) files = ⟨some e, [], true⟩)
    ∧ (∀ (r : UserRegex) (files : List (String × FKind × List String)),
        r.matchEmpty = true →
        render_search true (.ok r) files
          = ⟨some "search matches empty string", [], true⟩) := by
  constructor
  · intro e files
    rfl
  · intro r files h
    simp [render_search, h]

/-- Witness for C6 with a concrete empty-matching pattern and a nonempty
file tree. -/
theorem C6_invalid_pattern_witness :
    render_search true (.ok ⟨fun _ => true, fun _ => [], true⟩)
        [("log", FKind.file, ["x"])]
      = ⟨some "search matches empty string", [], true⟩ :=
  C6_invalid_pattern.2 ⟨fun _ => true, fun _ => [], true⟩
    [("log", FKind.file, ["x"])] rfl

/-! ### Path sandboxing -/

/-- Counterexample to C4 as stated: the prefix test is a plain string
comparison on the lexically canonicalized path (no symlink resolution, not
a strict prefix).  With root '/etc', resolving '../../etc/passwd' as a file
SUCCEEDS (the escape target '/etc/passwd' has '/etc' as a string prefix),
and resolving the root itself — which is not a *strict* prefix of itself —
also succeeds. -/
theorem C4_counterexample :
    get_safe_path "/" "/etc" "../../etc/passwd" (fun p => p == "/etc/passwd")
        (fun _ => false) false = some ("/etc/passwd", "passwd")
    ∧ get_safe_path "/" "/logs" "" (fun _ => false) (fun p => p == "/logs")
        true = some ("/logs", "") :=
  ⟨by decide, by decide⟩

/-- C4 (amended): resolution canonicalizes the joined path lexically
(resolving '.' and '..' textually; symlinks are not resolved) and fails
with not-found exactly when the result does not have the root as a string
prefix or the entry is missing or of the wrong kind; resolving
'../../etc/passwd' as a file fails for a root like '/znc/moddata/log/user'
whatever the filesystem contains, while resolving 'sub/../sub/file.log'
succeeds with relative path 'sub/file.log' when that file exists. -/
theorem C4_sandbox :
    (∀ (cwd logdir path : String) (isfile isdir : String → Bool) (dir : Bool),
        get_safe_path cwd logdir path isfile isdir dir = none
          ↔ (strStartsWith (abspath cwd (pJoin (abspath cwd logdir) path))
                (abspath cwd logdir) = false
              ∨ (dir = true
                  ∧ isdir (abspath cwd (pJoin (abspath cwd logdir) path))
                      = false)
              ∨ (dir = false
                  ∧ isfile (abspath cwd (pJoin (abspath cwd logdir) path))
                      = false)))
    ∧ (∀ (isfile isdir : String → Bool),
        get_safe_path "/" "/znc/moddata/log/user" "../../etc/passwd"
          isfile isdir false = none)
    ∧ get_safe_path "/" "/logs" "sub/../sub/file.log"
        (fun p => p == "/logs/sub/file.log") (fun _ => false) false
        = some ("/logs/sub/file.log", "sub/file.log") := by
  have h1 : ∀ (cwd logdir path : String) (isfile isdir : String → Bool)
      (dir : Bool),
      get_safe_path cwd logdir path isfile isdir dir = none
        ↔ (strStartsWith (abspath cwd (pJoin (abspath cwd logdir) path))
              (abspath cwd logdir) = false
            ∨ (dir = true
                ∧ isdir (abspath cwd (pJoin (abspath cwd logdir) path))
                    = false)
            ∨ (dir = false
                ∧ isfile (abspath cwd (pJoin (abspath cwd logdir) path))
                    = false)) := by
    intro cwd logdir path isfile isdir dir
    simp only [get_safe_path]
    split_ifs with hA hB hC
    · simp [hA]
    · simp [hB]
    · simp [hC]
    · constructor
      · intro hcon
        simp at hcon
      · rintro (h | h | h)
        · exact absurd h hA
        · exact absurd h hB
        · exact absurd h hC
  refine ⟨h1, ?_, by decide⟩
  intro isfile isdir
  exact (h1 "/" "/znc/moddata/log/user" "../../etc/passwd" isfile isdir
    false).mpr (Or.inl (by decide))

/-- Witness for C4 (amended) at a concrete escaping path. -/
theorem C4_sandbox_witness :
    get_safe_path "/" "/etc" "../.." (fun _ => false) (fun _ => true) true
      = none :=
  (C4_sandbox.1 "/" "/etc" "../.." (fun _ => false) (fun _ => true)
    true).mpr (Or.inl (by decide))

end Logviewer
